import Mathlib

/-!
# Verification of the guitar_transcriber core

A shallow embedding, in Lean 4, of the core of the `guitar_transcriber`
repository (`backend/app`): the fretboard model (`models/guitar.py`), the
Viterbi-style tablature solver (`services/tab_solver.py`), the GP5 builder's
quantisation and note-field logic (`services/guitarpro_builder.py`), the
alphaTex markup builder (`services/alphatex_builder.py`) and the note filter
of the pitch detector (`services/pitch_detector.py`).

Python floats are modelled as rationals (`ℚ`), Python ints as `ℤ`.  Python's
`list.sort` / `sorted` (stable) is modelled by `List.insertionSort` (stable) with
the corresponding `≤`-comparator.  Python's `float("inf")` initial values are
modelled by starting the running minimum from the first candidate (every list
the code takes a minimum over is non-empty, so the first comparison against
infinity always succeeds); `Option` is used where the code distinguishes
"no value yet".
-/

/-- Python's `abs` on a float, as a rational operation. -/
def pyAbs (q : ℚ) : ℚ := if q < 0 then -q else q

/-- Python's `int()` applied to a float: truncation toward zero. -/
def pyInt (q : ℚ) : ℤ := Int.tdiv q.num (q.den : ℤ)

/-! ## Data model (`models/note_event.py`) -/

/-- `NoteEvent`: a detected note (times in seconds, velocity in `0.0..1.0`). -/
structure NoteEvent where
  start_time : ℚ
  end_time : ℚ
  midi_pitch : ℤ
  velocity : ℚ
deriving DecidableEq

/-- `NoteEvent.duration` property. -/
def NoteEvent.duration (n : NoteEvent) : ℚ := n.end_time - n.start_time

/-- `TabNote`: a note with string/fret assignment. -/
structure TabNote where
  start_time : ℚ
  end_time : ℚ
  midi_pitch : ℤ
  velocity : ℚ
  string : ℤ
  fret : ℤ
deriving DecidableEq

/-! ## Fretboard model (`models/guitar.py`) -/

/-- Standard tuning: string number (1 = high E) to open-string MIDI pitch.
Python iterates the dict in insertion order, so a list of pairs is faithful. -/
def STANDARD_TUNING : List (ℤ × ℤ) := [(1, 64), (2, 59), (3, 55), (4, 50), (5, 45), (6, 40)]

def MAX_FRET : ℤ := 24

def NUM_STRINGS : ℤ := 6

/-- `candidates_for_pitch`: all valid (string, fret) pairs for a MIDI pitch. -/
def candidates_for_pitch (midi_pitch : ℤ) : List (ℤ × ℤ) :=
  STANDARD_TUNING.filterMap (fun sp =>
    let fret := midi_pitch - sp.2
    if 0 ≤ fret ∧ fret ≤ MAX_FRET then some (sp.1, fret) else none)

/-! ## Tab solver (`services/tab_solver.py`) -/

/-- A group of simultaneous notes (`ChordGroup` dataclass). -/
structure ChordGroup where
  start_time : ℚ
  notes : List NoteEvent
deriving DecidableEq

/-- A chord assignment: list of (string, fret) matching each note in the chord. -/
abbrev ChordAssignment := List (ℤ × ℤ)

/-- The constructor arguments of `TabSolver` (weights in `ℚ`, window already
divided by 1000 as in `__init__`). -/
structure SolverConfig where
  chord_window : ℚ
  max_fret_span : ℤ
  position_jump_weight : ℚ
  stretch_weight : ℚ
  high_fret_weight : ℚ
  max_combos : ℤ
  target_fret : Option ℤ
deriving DecidableEq

/-- The defaults from `app/config.py` (`chord_window_ms=50`, `max_fret_span=5`,
`position_jump_weight=1.5`, `stretch_weight=0.8`, `high_fret_penalty_weight=0.15`,
`max_combos=50`, `target_fret=None`). -/
def defaultConfig : SolverConfig :=
  { chord_window := 50 / 1000
    max_fret_span := 5
    position_jump_weight := 3 / 2
    stretch_weight := 4 / 5
    high_fret_weight := 3 / 20
    max_combos := 50
    target_fret := none }

namespace TabSolver

/-- The loop of `_group_chords` after the initial stable sort: `head` is
`current[0]` (the group's first note), `acc` the rest of the running group; a
note within `chord_window` of `head` joins the group, the first note outside
it closes the group and starts a new one. -/
def group_chords_go (w : ℚ) (head : NoteEvent) (acc : List NoteEvent) :
    List NoteEvent → List ChordGroup
  | [] => [⟨head.start_time, head :: acc⟩]
  | m :: ms =>
    if m.start_time - head.start_time ≤ w then group_chords_go w head (acc ++ [m]) ms
    else ⟨head.start_time, head :: acc⟩ :: group_chords_go w m [] ms

/-- `itertools.product` over a list of candidate lists, in lexicographic order
(first list varies slowest), each tuple materialised as a list. -/
def listProd : List (List (ℤ × ℤ)) → List (List (ℤ × ℤ))
  | [] => [[]]
  | cands :: rest => cands.flatMap (fun c => (listProd rest).map (fun tail => c :: tail))

/-- `len(strings_used) != len(set(strings_used))` check: all strings distinct. -/
def distinctStrings : List ℤ → Bool
  | [] => true
  | s :: rest => !(rest.contains s) && distinctStrings rest

/-- The acceptance test of `_generate_assignments`: no duplicate strings, and
the span of fretted (`fret > 0`) positions is at most `max_fret_span`. -/
def validCombo (span : ℤ) (combo : List (ℤ × ℤ)) : Bool :=
  distinctStrings (combo.map Prod.fst) &&
    (match (combo.map Prod.snd).filter (fun f => decide (0 < f)) with
     | [] => true
     | f :: fs => decide (fs.foldl max f - fs.foldl min f ≤ span))

/-- The accumulation loop of `_generate_assignments`: keep the combos passing
`p`, stopping right after the accepted count reaches `max_combos` (the bound
is tested AFTER appending, so one combo is kept even if `max_combos ≤ 0`). -/
def filterUpTo (p : List (ℤ × ℤ) → Bool) (maxCombos : ℤ) : ℤ → List (List (ℤ × ℤ)) → List (List (ℤ × ℤ))
  | _, [] => []
  | cnt, c :: rest =>
    if p c then
      if maxCombos ≤ cnt + 1 then [c]
      else c :: filterUpTo p maxCombos (cnt + 1) rest
    else filterUpTo p maxCombos cnt rest

/-- `_zone_cost`: distance-to-target penalty (weight 2.0, open-string penalty
`target * 0.3`); zero when no target fret is set. -/
def zone_cost (cfg : SolverConfig) (a : ChordAssignment) : ℚ :=
  match cfg.target_fret with
  | none => 0
  | some t =>
    a.foldl (fun c sf =>
      if 0 < sf.2 then c + ((sf.2 - t).natAbs : ℚ) * 2
      else c + (t : ℚ) * (3 / 10)) 0

/-- `_internal_cost`: stretch of fretted positions times `stretch_weight` plus
mean fret (over ALL positions, open included) times `high_fret_weight`;
zero if no fretted positions. -/
def internal_cost (cfg : SolverConfig) (a : ChordAssignment) : ℚ :=
  match (a.map Prod.snd).filter (fun f => decide (0 < f)) with
  | [] => 0
  | f :: fs =>
    ((fs.foldl max f - fs.foldl min f : ℤ) : ℚ) * cfg.stretch_weight
      + (((a.map Prod.snd).sum : ℤ) : ℚ) / (a.length : ℚ) * cfg.high_fret_weight

/-- `_fret_position`: mean fret of fretted positions only, 0.0 if all open. -/
def fret_position (a : ChordAssignment) : ℚ :=
  match (a.map Prod.snd).filter (fun f => decide (0 < f)) with
  | [] => 0
  | f :: fs => (((f :: fs).sum : ℤ) : ℚ) / (((f :: fs).length : ℕ) : ℚ)

/-- `_transition_cost`: squared position jump times `position_jump_weight`
(`jump ** 2` is written `jump * jump`, the same rational). -/
def transition_cost (cfg : SolverConfig) (prev curr : ChordAssignment) : ℚ :=
  let jump := pyAbs (fret_position curr - fret_position prev)
  jump * jump * cfg.position_jump_weight

/-- `_generate_assignments`: per-note candidates (empty list if some note has
none), Cartesian product filtered by `validCombo` and capped at `max_combos`,
then (only when a target fret is set) stably sorted by zone cost. -/
def generate_assignments (cfg : SolverConfig) (chord : ChordGroup) : List ChordAssignment :=
  let perNote := chord.notes.map (fun nt => candidates_for_pitch nt.midi_pitch)
  if perNote.any List.isEmpty then []
  else
    let valid := filterUpTo (validCombo cfg.max_fret_span) cfg.max_combos 0 (listProd perNote)
    match cfg.target_fret with
    | some _ => List.insertionSort (fun a b => zone_cost cfg a ≤ zone_cost cfg b) valid
    | none => valid

/-- The candidate ordering used by `_fallback_assignment`: stably sorted by
distance to the target fret if one is set, else by fret (prefer lower). -/
def fallback_sorted (cfg : SolverConfig) (p : ℤ) : List (ℤ × ℤ) :=
  match cfg.target_fret with
  | some t => List.insertionSort (fun a b : ℤ × ℤ => (a.2 - t).natAbs ≤ (b.2 - t).natAbs)
      (candidates_for_pitch p)
  | none => List.insertionSort (fun a b : ℤ × ℤ => a.2 ≤ b.2) (candidates_for_pitch p)

/-- The loop body of `_fallback_assignment`: the first sorted candidate on an
unused string wins; otherwise force `(1, max(0, pitch - 64))` (and do NOT
mark string 1 used, as in the code). -/
def fallback_assignment_aux (cfg : SolverConfig) (used : List ℤ) : List NoteEvent → ChordAssignment
  | [] => []
  | nt :: rest =>
    match (fallback_sorted cfg nt.midi_pitch).find? (fun sf => !(used.contains sf.1)) with
    | some sf => sf :: fallback_assignment_aux cfg (sf.1 :: used) rest
    | none => (1, max 0 (nt.midi_pitch - 64)) :: fallback_assignment_aux cfg used rest

/-- `_fallback_assignment`. -/
def fallback_assignment (cfg : SolverConfig) (chord : ChordGroup) : ChordAssignment :=
  fallback_assignment_aux cfg [] chord.notes

/-- The inner `for k` scan of the DP fill (and Python's `min(range, key=...)`):
running best value/index, updated only on a STRICT improvement, so the first
minimum seen wins.  `bv, bi` are the current best, `n` the index of the head. -/
def scanMinAux (bv : ℚ) (bi : ℕ) (n : ℕ) : List ℚ → ℚ × ℕ
  | [] => (bv, bi)
  | v :: vs => if v < bv then scanMinAux v n (n + 1) vs else scanMinAux bv bi (n + 1) vs

/-- Minimum value and first-minimising index of a list (the `dp[i][j] = INF`
initialisation means the first candidate always replaces it; junk on `[]`,
which the solver never hits since every chord has at least one assignment). -/
def innerMin : List ℚ → ℚ × ℕ
  | [] => (0, 0)
  | v :: vs => scanMinAux v 0 1 vs

/-- The DP fill (step 3 of `solve`) over the remaining chords: from the
previous row's assignments and dp values, compute each next row; returns the
final dp row and the back-pointer rows (for chords `1..n-1`, in order). -/
def dpFold (cfg : SolverConfig) : List ChordAssignment → List ℚ → List (List ChordAssignment) → List ℚ × List (List ℕ)
  | _, prevDp, [] => (prevDp, [])
  | prevA, prevDp, currA :: rest =>
    let rows := currA.map (fun a =>
      let iz := internal_cost cfg a + zone_cost cfg a
      innerMin ((prevDp.zip prevA).map (fun dk => dk.1 + transition_cost cfg dk.2 a + iz)))
    let res := dpFold cfg currA (rows.map Prod.fst) rest
    (res.1, (rows.map Prod.snd) :: res.2)

/-- Step 4 of `solve` (backtrack): consumes the back-pointer rows LAST ROW
FIRST and produces the path last index first. -/
def traceAux : List (List ℕ) → ℕ → List ℕ
  | [], j => [j]
  | row :: rest, j => j :: traceAux rest (row.getD j 0)

/-- The optimal path `path[0..n-1]` of `solve`: run the DP, pick the first
argmin of the final row, backtrack. -/
def buildPath (cfg : SolverConfig) (A0 : List ChordAssignment) (dp0 : List ℚ)
    (Arest : List (List ChordAssignment)) : List ℕ :=
  let res := dpFold cfg A0 dp0 Arest
  (traceAux res.2.reverse (innerMin res.1).2).reverse

/-- Step 5 of `solve`: zip each chord's notes with its chosen assignment. -/
def expandChords (chords : List ChordGroup) (A : List (List ChordAssignment)) (path : List ℕ) : List TabNote :=
  (chords.zip (A.zip path)).flatMap (fun cap =>
    (cap.1.notes.zip (cap.2.1.getD cap.2.2 [])).map (fun na =>
      { start_time := na.1.start_time
        end_time := na.1.end_time
        midi_pitch := na.1.midi_pitch
        velocity := na.1.velocity
        string := na.2.1
        fret := na.2.2 }))

/-- The comparator of the final `result.sort(key=(start_time, string))`. -/
def tabLe (a b : TabNote) : Prop :=
  a.start_time < b.start_time ∨ (a.start_time = b.start_time ∧ a.string ≤ b.string)

instance tabLe.decRel : DecidableRel tabLe := fun a b =>
  inferInstanceAs (Decidable (_ ∨ _))

/-- Steps 3-5 of `solve` (DP, backtrack, expansion, final sort), over the
chord groups and their per-chord assignment lists. -/
def solve_dp (cfg : SolverConfig) (chords : List ChordGroup) :
    List (List ChordAssignment) → List TabNote
  | [] => []
  | A0 :: Arest =>
    List.insertionSort tabLe (expandChords chords (A0 :: Arest)
      (buildPath cfg A0 (A0.map (fun a => internal_cost cfg a + zone_cost cfg a)) Arest))

/-- Step 2 of `solve`: valid assignments per chord, the fallback replacing an
empty assignment list. -/
def chord_assignments (cfg : SolverConfig) (c : ChordGroup) : List ChordAssignment :=
  let g := generate_assignments cfg c
  if g.isEmpty then [fallback_assignment cfg c] else g

/-- `TabSolver.solve`.  The initial emptiness test and the stable sort at the
head of `_group_chords` are fused into one `match` on the sorted input. -/
def solve (cfg : SolverConfig) (notes : List NoteEvent) : List TabNote :=
  match (List.insertionSort (fun a b => a.start_time ≤ b.start_time) notes) with
  | [] => []
  | n :: rest =>
    let chords := group_chords_go cfg.chord_window n [] rest
    solve_dp cfg chords (chords.map (chord_assignments cfg))

end TabSolver

/-! ## Guitar Pro 5 builder (`services/guitarpro_builder.py`) -/

namespace GuitarProBuilder

/-- Duration value to ticks mapping (960 ticks per quarter note). -/
def DURATION_MAP : List (ℤ × ℤ) :=
  [(3840, 1), (1920, 2), (960, 4), (480, 8), (240, 16), (120, 32), (60, 64)]

/-- The scan of `_quantize_duration_value`: running best value/diff, updated
only on a STRICT improvement; `bd = none` models the initial `float("inf")`
(so the first entry always becomes the running best). -/
def quantAux (ticks : ℤ) (bv : ℤ) (bd : Option ℕ) : List (ℤ × ℤ) → ℤ
  | [] => bv
  | rv :: rest =>
    let diff := (ticks - rv.1).natAbs
    match bd with
    | none => quantAux ticks rv.2 (some diff) rest
    | some b =>
      if diff < b then quantAux ticks rv.2 (some diff) rest else quantAux ticks bv bd rest

/-- `_quantize_duration_value`: closest standard duration value for a tick
count (initial best value 64). -/
def quantize_duration_value (ticks : ℤ) : ℤ := quantAux ticks 64 none DURATION_MAP

/-- The constructor arguments of `GuitarProBuilder` (`config.py` defaults:
`tempo_bpm = 120`, `ticks_per_beat = 960`). -/
structure GPConfig where
  tempo : ℤ
  ticks_per_beat : ℤ
deriving DecidableEq

def ticks_per_second (cfg : GPConfig) : ℚ := ((cfg.tempo * cfg.ticks_per_beat : ℤ) : ℚ) / 60

/-- The tick-conversion loop of `build`: `(start_tick, duration_ticks, note)`
with `int()` truncation and the 60-tick duration floor. -/
def tick_notes (cfg : GPConfig) (tab_notes : List TabNote) : List (ℤ × ℤ × TabNote) :=
  tab_notes.map (fun n =>
    let st := pyInt (n.start_time * ticks_per_second cfg)
    let et := pyInt (n.end_time * ticks_per_second cfg)
    (st, max (et - st) 60, n))

/-- The grouping loop of `_group_into_beats` after the stable sort by start
tick: `cs` is `current_start` (the group's FIRST start tick), `grp` the
running group; entries within 30 ticks of `cs` join it. -/
def beats_go (cs : ℤ) (grp : List (ℤ × ℤ × TabNote)) :
    List (ℤ × ℤ × TabNote) → List (ℤ × List (ℤ × ℤ × TabNote))
  | [] => [(cs, grp)]
  | tn :: rest =>
    if (tn.1 - cs).natAbs ≤ 30 then beats_go cs (grp ++ [tn]) rest
    else (cs, grp) :: beats_go tn.1 [tn] rest

/-- `_group_into_beats`. -/
def group_into_beats (tick : List (ℤ × ℤ × TabNote)) : List (ℤ × List (ℤ × ℤ × TabNote)) :=
  match List.insertionSort (fun a b : ℤ × ℤ × TabNote => a.1 ≤ b.1) tick with
  | [] => []
  | c :: rest => beats_go c.1 [c] rest

/-- A GP5 note as written by `build`: `string`, `value` (fret) and `velocity`
(`int(tab_note.velocity * 127)`). -/
structure GPNote where
  string : ℤ
  fret : ℤ
  velocity : ℤ
deriving DecidableEq

/-- A GP5 beat as written by `build`: its start tick, the duration value taken
from the FIRST note of the group, and its notes. -/
structure GPBeat where
  start_tick : ℤ
  duration_value : ℤ
  notes : List GPNote
deriving DecidableEq

/-- The beat-construction loop of `build` (groups are non-empty by
construction, so the `[]` arm for the first note is dead). -/
def build_beats (cfg : GPConfig) (tab_notes : List TabNote) : List GPBeat :=
  (group_into_beats (tick_notes cfg tab_notes)).map (fun bg =>
    { start_tick := bg.1
      duration_value := quantize_duration_value (match bg.2 with | [] => 0 | tn :: _ => tn.2.1)
      notes := bg.2.map (fun tn =>
        { string := tn.2.2.string, fret := tn.2.2.fret, velocity := pyInt (tn.2.2.velocity * 127) }) })

end GuitarProBuilder

/-! ## alphaTex builder (`services/alphatex_builder.py`) -/

namespace AlphaTexBuilder

/-- Duration in seconds to alphaTex duration value thresholds. -/
def DURATION_THRESHOLDS : List (ℚ × ℤ) :=
  [(3/2, 1), (3/4, 2), (3/8, 4), (3/16, 8), (9/100, 16), (0, 32)]

/-- `_quantize_duration`: first threshold whose minimum the mean per-note
duration meets, else 32. -/
def quantize_duration (notes : List TabNote) : ℤ :=
  let avg := (notes.map (fun n => n.end_time - n.start_time)).sum / (notes.length : ℚ)
  match DURATION_THRESHOLDS.find? (fun tv => decide (avg ≥ tv.1)) with
  | some tv => tv.2
  | none => 32

/-- The grouping loop of `_group_into_beats` after the stable sort by
`(start_time, string)`: same chord-window pattern as the solver (`head` is
the running group's first note, `grp` the whole running group). -/
def atex_go (w : ℚ) (head : TabNote) (grp : List TabNote) :
    List TabNote → List (List TabNote × ℤ)
  | [] => [(grp, quantize_duration grp)]
  | m :: ms =>
    if m.start_time - head.start_time ≤ w then atex_go w head (grp ++ [m]) ms
    else (grp, quantize_duration grp) :: atex_go w m [m] ms

/-- `_group_into_beats` (the window is the module-level setting
`chord_window_ms = 50`, read from global config, not a builder argument). -/
def group_into_beats (tab_notes : List TabNote) : List (List TabNote × ℤ) :=
  match List.insertionSort TabSolver.tabLe tab_notes with
  | [] => []
  | c :: rest => atex_go (50 / 1000) c [c] rest

/-- One beat's text: `fret.string.duration`, or the parenthesised chord form. -/
def beatText (bn : List TabNote × ℤ) : String :=
  match bn.1 with
  | [n] => toString n.fret ++ "." ++ toString n.string ++ "." ++ toString bn.2
  | ns => "(" ++ String.intercalate " " (ns.map (fun n => toString n.fret ++ "." ++ toString n.string))
            ++ ")." ++ toString bn.2

/-- `AlphaTexBuilder.build` (the builder's `tempo` attribute is its argument). -/
def build (tempo : ℤ) (tab_notes : List TabNote) : String :=
  if tab_notes.isEmpty then "\\title 'Guitar Transcription' \\tempo 120 . 1 r"
  else
    String.intercalate " "
      (["\\title 'Guitar Transcription'", "\\tempo " ++ toString tempo, "\\instrument 25",
        "\\tuning e5 b4 g4 d4 a3 e3", "."] ++ (group_into_beats tab_notes).map beatText)

end AlphaTexBuilder

/-! ## Pitch-detector note filter (`services/pitch_detector.py`) -/

def GUITAR_MIN_MIDI : ℤ := 40

def GUITAR_MAX_MIDI : ℤ := 88

namespace PitchDetector

/-- Comparator for `sorted(notes, key=(midi_pitch, start_time))`. -/
def byPitchStart (a b : NoteEvent) : Prop :=
  a.midi_pitch < b.midi_pitch ∨ (a.midi_pitch = b.midi_pitch ∧ a.start_time ≤ b.start_time)

instance byPitchStart.decRel : DecidableRel byPitchStart := fun a b =>
  inferInstanceAs (Decidable (_ ∨ _))

/-- Comparator for `notes.sort(key=(start_time, midi_pitch))`. -/
def byStartPitch (a b : NoteEvent) : Prop :=
  a.start_time < b.start_time ∨ (a.start_time = b.start_time ∧ a.midi_pitch ≤ b.midi_pitch)

instance byStartPitch.decRel : DecidableRel byStartPitch := fun a b =>
  inferInstanceAs (Decidable (_ ∨ _))

/-- The scan of `_deduplicate`: `prev` is `kept[-1]`; an overlapping same-pitch
note replaces it if strictly longer, else is dropped. -/
def dedupAux (prev : NoteEvent) : List NoteEvent → List NoteEvent
  | [] => [prev]
  | n :: rest =>
    if n.midi_pitch = prev.midi_pitch ∧ n.start_time < prev.end_time then
      if n.duration > prev.duration then dedupAux n rest else dedupAux prev rest
    else prev :: dedupAux n rest

/-- `_deduplicate` (lists of length ≤ 1 are returned untouched, unsorted). -/
def deduplicate (notes : List NoteEvent) : List NoteEvent :=
  if notes.length ≤ 1 then notes
  else match List.insertionSort byPitchStart notes with
    | [] => notes
    | n :: rest => dedupAux n rest

/-- The scan of `_merge_close_notes`: `prev` is `merged[-1]`; a same-pitch note
within the gap tolerance extends it (max end, max velocity). -/
def mergeAux (tol : ℚ) (prev : NoteEvent) : List NoteEvent → List NoteEvent
  | [] => [prev]
  | n :: rest =>
    if n.midi_pitch = prev.midi_pitch ∧ n.start_time - prev.end_time ≤ tol then
      mergeAux tol ⟨prev.start_time, max prev.end_time n.end_time, prev.midi_pitch,
                    max prev.velocity n.velocity⟩ rest
    else prev :: mergeAux tol n rest

/-- `_merge_close_notes` (tolerance given in milliseconds). -/
def merge_close_notes (notes : List NoteEvent) (tolMs : ℚ) : List NoteEvent :=
  if notes.length ≤ 1 ∨ tolMs ≤ 0 then notes
  else match List.insertionSort byPitchStart notes with
    | [] => notes
    | n :: rest => mergeAux (tolMs / 1000) n rest

/-- The per-note keep condition of `detect`'s loop: guitar MIDI range and
minimum velocity (`continue` on failure). -/
def keepNote (minVel : ℚ) (n : NoteEvent) : Bool :=
  !(decide (n.midi_pitch < GUITAR_MIN_MIDI) || decide (GUITAR_MAX_MIDI < n.midi_pitch))
    && !(decide (n.velocity < minVel))

/-- The composite note filter applied by `detect` after the raw model output:
range clip, velocity clip, deduplication, close-note merge, final stable sort
by `(start_time, midi_pitch)`. -/
def note_filter (minVel tolMs : ℚ) (notes : List NoteEvent) : List NoteEvent :=
  List.insertionSort byStartPitch
    (merge_close_notes (deduplicate (notes.filter (keepNote minVel))) tolMs)

end PitchDetector

/-! ## Generic first-minimum machinery

`listMin1 v l` is the minimum of the non-empty list `v :: l`; `listArgmin1 v l`
is the EARLIEST index of `v :: l` attaining it.  These are the specification
counterparts of the strict-improvement scans in the code. -/

def listMin1 {α : Type} [LinearOrder α] (v : α) : List α → α
  | [] => v
  | w :: ws => min v (listMin1 w ws)

def listArgmin1 {α : Type} [LinearOrder α] (v : α) : List α → ℕ
  | [] => 0
  | w :: ws => if v ≤ listMin1 w ws then 0 else listArgmin1 w ws + 1

theorem listMin1_le_head {α : Type} [LinearOrder α] (v : α) (l : List α) : listMin1 v l ≤ v := by
  cases l with
  | nil => simp [listMin1]
  | cons w ws => simp [listMin1]

theorem listMin1_le_mem {α : Type} [LinearOrder α] {v x : α} {l : List α}
    (hx : x ∈ l) : listMin1 v l ≤ x := by
  induction l generalizing v with
  | nil => cases hx
  | cons w ws ih =>
    rcases List.mem_cons.mp hx with rfl | hx2
    · exact le_trans (min_le_right _ _) (listMin1_le_head _ _)
    · exact le_trans (min_le_right _ _) (ih hx2)

theorem listArgmin1_lt_length {α : Type} [LinearOrder α] (v : α) (l : List α) :
    listArgmin1 v l < l.length + 1 := by
  induction l generalizing v with
  | nil => simp [listArgmin1]
  | cons w ws ih =>
    by_cases h : v ≤ listMin1 w ws
    · simp [listArgmin1, h]
    · simp only [listArgmin1, if_neg h, List.length_cons]
      have := ih w
      omega

theorem getD_listArgmin1 {α : Type} [LinearOrder α] (v : α) (l : List α) (d : α) :
    (v :: l).getD (listArgmin1 v l) d = listMin1 v l := by
  induction l generalizing v with
  | nil => simp [listArgmin1, listMin1]
  | cons w ws ih =>
    by_cases h : v ≤ listMin1 w ws
    · simp [listArgmin1, listMin1, h, min_eq_left h]
    · push_neg at h
      simp only [listArgmin1, if_neg (not_le.mpr h), listMin1]
      have : (v :: w :: ws).getD (listArgmin1 w ws + 1) d = (w :: ws).getD (listArgmin1 w ws) d := rfl
      rw [this, ih, min_eq_right (le_of_lt h)]

theorem getD_lt_of_lt_listArgmin1 {α : Type} [LinearOrder α] {v : α} {l : List α} (d : α)
    {j : ℕ} (hj : j < listArgmin1 v l) : listMin1 v l < (v :: l).getD j d := by
  induction l generalizing v j with
  | nil => simp [listArgmin1] at hj
  | cons w ws ih =>
    by_cases h : v ≤ listMin1 w ws
    · simp [listArgmin1, h] at hj
    · push_neg at h
      simp only [listArgmin1, if_neg (not_le.mpr h)] at hj
      cases j with
      | zero => simpa [listMin1, min_eq_right (le_of_lt h)] using h
      | succ j2 =>
        have hj2 : j2 < listArgmin1 w ws := by omega
        have := ih (v := w) hj2
        simpa [listMin1, min_eq_right (le_of_lt h)] using this

theorem listMin1_map_add (v : ℚ) (l : List ℚ) (c : ℚ) :
    listMin1 (v + c) (l.map (· + c)) = listMin1 v l + c := by
  induction l generalizing v with
  | nil => simp [listMin1]
  | cons w ws ih => simp [listMin1, ih, min_add_add_right]

theorem listArgmin1_map_add (v : ℚ) (l : List ℚ) (c : ℚ) :
    listArgmin1 (v + c) (l.map (· + c)) = listArgmin1 v l := by
  induction l generalizing v with
  | nil => simp [listArgmin1]
  | cons w ws ih =>
    simp only [List.map_cons, listArgmin1, listMin1_map_add, add_le_add_iff_right, ih]

namespace TabSolver

/-- The strict-improvement scan computes min and earliest argmin: the
accumulator `(bv, bi)` survives unless the rest of the list goes strictly
below it, in which case the winner is the first minimum of the rest. -/
theorem scanMinAux_spec (l : List ℚ) : ∀ (bv : ℚ) (bi n : ℕ),
    scanMinAux bv bi n l =
      match l with
      | [] => (bv, bi)
      | w :: ws =>
        if bv ≤ listMin1 w ws then (bv, bi)
        else (listMin1 w ws, n + listArgmin1 w ws) := by
  induction l with
  | nil => intro bv bi n; rfl
  | cons w ws ih =>
    intro bv bi n
    show (if w < bv then scanMinAux w n (n + 1) ws else scanMinAux bv bi (n + 1) ws) = _
    by_cases hwbv : w < bv
    · rw [if_pos hwbv, ih]
      cases ws with
      | nil =>
        simp only [listMin1, listArgmin1, if_neg (not_le.mpr hwbv)]
        simp
      | cons w2 ws2 =>
        show (if w ≤ listMin1 w2 ws2 then (w, n) else (listMin1 w2 ws2, n + 1 + listArgmin1 w2 ws2)) =
          (if bv ≤ listMin1 w (w2 :: ws2) then (bv, bi)
           else (listMin1 w (w2 :: ws2), n + listArgmin1 w (w2 :: ws2)))
        have houter : ¬ bv ≤ listMin1 w (w2 :: ws2) := by
          simp only [listMin1]
          exact not_le.mpr (lt_of_le_of_lt (min_le_left _ _) hwbv)
        rw [if_neg houter]
        by_cases h2 : w ≤ listMin1 w2 ws2
        · rw [if_pos h2]
          simp [listMin1, listArgmin1, h2, min_eq_left h2]
        · rw [if_neg h2]
          push_neg at h2
          simp only [listMin1, listArgmin1, if_neg (not_le.mpr h2),
            min_eq_right (le_of_lt h2), Prod.mk.injEq, true_and]
          omega
    · rw [if_neg hwbv, ih]
      push_neg at hwbv
      cases ws with
      | nil =>
        simp only [listMin1, listArgmin1, if_pos hwbv]
      | cons w2 ws2 =>
        show (if bv ≤ listMin1 w2 ws2 then (bv, bi) else (listMin1 w2 ws2, n + 1 + listArgmin1 w2 ws2)) =
          (if bv ≤ listMin1 w (w2 :: ws2) then (bv, bi)
           else (listMin1 w (w2 :: ws2), n + listArgmin1 w (w2 :: ws2)))
        by_cases h2 : bv ≤ listMin1 w2 ws2
        · have hcond : bv ≤ listMin1 w (w2 :: ws2) := by
            simp only [listMin1]
            exact le_min hwbv h2
          rw [if_pos h2, if_pos hcond]
        · push_neg at h2
          have hmw : listMin1 w2 ws2 < w := lt_of_lt_of_le h2 hwbv
          have hcond : ¬ bv ≤ listMin1 w (w2 :: ws2) := by
            simp only [listMin1, min_eq_right (le_of_lt hmw)]
            exact not_le.mpr h2
          rw [if_neg (not_le.mpr h2), if_neg hcond]
          simp only [listMin1, listArgmin1, if_neg (not_le.mpr hmw),
            min_eq_right (le_of_lt hmw), Prod.mk.injEq, true_and]
          omega

/-- `innerMin` on a non-empty list is exactly (minimum, earliest argmin). -/
theorem innerMin_eq (v : ℚ) (vs : List ℚ) :
    innerMin (v :: vs) = (listMin1 v vs, listArgmin1 v vs) := by
  show scanMinAux v 0 1 vs = _
  rw [scanMinAux_spec]
  cases vs with
  | nil => rfl
  | cons w ws =>
    simp only [listMin1, listArgmin1]
    by_cases h : v ≤ listMin1 w ws
    · rw [if_pos h, if_pos h, min_eq_left h]
    · rw [if_neg h, if_neg h, min_eq_right (le_of_lt (not_le.mp h))]
      simp only [Prod.mk.injEq, true_and]
      omega

end TabSolver

/-! ## Specification-side definitions

These are written from the SPEC's wording (recurrence, tie-breaking,
greedy fallback rule), to be compared with the code embeddings above. -/

namespace TabSolver

/-- The Viterbi recurrence as the spec states it:
`dp[i][j] = min_k (dp[i-1][k] + transition(A_(i-1)[k], A_i[j])) + internal + zone`,
`back[i][j] = argmin_k`, every argmin tie broken in favour of the earliest
index (`listMin1` / `listArgmin1`). -/
def dpSpecFold (cfg : SolverConfig) :
    List ChordAssignment → List ℚ → List (List ChordAssignment) → List ℚ × List (List ℕ)
  | _, prevDp, [] => (prevDp, [])
  | prevA, prevDp, currA :: rest =>
    let base := fun a => (prevDp.zip prevA).map (fun dk => dk.1 + transition_cost cfg dk.2 a)
    let dpRow := currA.map (fun a =>
      (match base a with | [] => 0 | v :: vs => listMin1 v vs)
        + internal_cost cfg a + zone_cost cfg a)
    let backRow := currA.map (fun a =>
      match base a with | [] => 0 | v :: vs => listArgmin1 v vs)
    let res := dpSpecFold cfg currA dpRow rest
    (res.1, backRow :: res.2)

/-- The optimal path as the spec states it: `argmin_j dp[n-1][j]` (earliest on
ties), then trace back through the back-pointers. -/
def buildPathSpec (cfg : SolverConfig) (A0 : List ChordAssignment) (dp0 : List ℚ)
    (Arest : List (List ChordAssignment)) : List ℕ :=
  let res := dpSpecFold cfg A0 dp0 Arest
  (traceAux res.2.reverse (match res.1 with | [] => 0 | v :: vs => listArgmin1 v vs)).reverse

/-- `solve_dp` with the spec recurrence in place of the code's DP scan. -/
def solveSpec_dp (cfg : SolverConfig) (chords : List ChordGroup) :
    List (List ChordAssignment) → List TabNote
  | [] => []
  | A0 :: Arest =>
    List.insertionSort tabLe (expandChords chords (A0 :: Arest)
      (buildPathSpec cfg A0 (A0.map (fun a => internal_cost cfg a + zone_cost cfg a)) Arest))

/-- `solve` with its DP stage replaced by the spec recurrence above; all other
stages are shared with the code embedding. -/
def solveSpec (cfg : SolverConfig) (notes : List NoteEvent) : List TabNote :=
  match (List.insertionSort (fun a b => a.start_time ≤ b.start_time) notes) with
  | [] => []
  | n :: rest =>
    let chords := group_chords_go cfg.chord_window n [] rest
    solveSpec_dp cfg chords (chords.map (chord_assignments cfg))

/-- The first-minimal element of a non-empty candidate list by fret
(first-seen wins on equal frets). -/
def minByFret1 (c : ℤ × ℤ) : List (ℤ × ℤ) → ℤ × ℤ
  | [] => c
  | d :: ds => if c.2 ≤ (minByFret1 d ds).2 then c else minByFret1 d ds

/-- The fallback rule as the spec states it: each note, in chord order, goes
to its lowest-fret candidate whose string is not yet used; if no candidate is
available, force `(string=1, fret=max(0, pitch-64))`. -/
def greedy_lowest_aux (used : List ℤ) : List NoteEvent → ChordAssignment
  | [] => []
  | nt :: rest =>
    match (candidates_for_pitch nt.midi_pitch).filter (fun sf => !(used.contains sf.1)) with
    | [] => (1, max 0 (nt.midi_pitch - 64)) :: greedy_lowest_aux used rest
    | c :: cs => minByFret1 c cs :: greedy_lowest_aux ((minByFret1 c cs).1 :: used) rest

/-- `greedy_lowest`: the spec's greedy fallback assignment for a chord. -/
def greedy_lowest (chord : ChordGroup) : ChordAssignment :=
  greedy_lowest_aux [] chord.notes

end TabSolver

/-! ## Claim theorems: direct evaluations -/

/-- C10: for every solver configuration (any target fret and weights),
`TabSolver.solve` applied to the empty note list returns the empty list. -/
theorem TabSolver.solve_nil_any_config (cfg : SolverConfig) : TabSolver.solve cfg [] = [] := rfl

/-- C9: for every configured tempo, the markup emitter applied to the empty
TabNote list returns exactly the literal string with `\tempo 120`, regardless
of the tempo the builder was constructed with. -/
theorem AlphaTexBuilder.build_empty_const_tempo120 (tempo : ℤ) :
    AlphaTexBuilder.build tempo [] = "\\title 'Guitar Transcription' \\tempo 120 . 1 r" := rfl

section

attribute [local semireducible] Rat.add Rat.mul Rat.sub Rat.inv

/-- C7: for the input D4, E4, D4 at 0.0, 0.5, 1.0 (duration 0.5, velocity 0.8)
with default weights and no target fret, the first and third output notes have
identical (string, fret) (both are string 2, fret 3; the middle note is
string 2, fret 5), and the output has three notes. -/
theorem TabSolver.position_stickiness_scenario :
    ((TabSolver.solve defaultConfig
        [⟨0, 1/2, 62, 4/5⟩, ⟨1/2, 1, 64, 4/5⟩, ⟨1, 3/2, 62, 4/5⟩]).map
      (fun t => (t.string, t.fret))).getD 0 (0, 0)
      = ((TabSolver.solve defaultConfig
        [⟨0, 1/2, 62, 4/5⟩, ⟨1/2, 1, 64, 4/5⟩, ⟨1, 3/2, 62, 4/5⟩]).map
      (fun t => (t.string, t.fret))).getD 2 (0, 0)
    ∧ (TabSolver.solve defaultConfig
        [⟨0, 1/2, 62, 4/5⟩, ⟨1/2, 1, 64, 4/5⟩, ⟨1, 3/2, 62, 4/5⟩]).map
      (fun t => (t.string, t.fret)) = [(2, 3), (2, 5), (2, 3)] := by decide

/-- C2 counterexample: the single note with `midi_pitch = 127` satisfies every
data-model bound of the claim, yet `solve` (via the forced fallback
`(1, max(0, 127-64))`) returns fret 63 > 24. -/
theorem TabSolver.solve_range_counterexample :
    (∀ n ∈ ([⟨0, 1/2, 127, 4/5⟩] : List NoteEvent),
       0 ≤ n.midi_pitch ∧ n.midi_pitch ≤ 127 ∧ 0 ≤ n.velocity ∧ n.velocity ≤ 1 ∧
       0 ≤ n.start_time ∧ n.start_time < n.end_time) ∧
    (TabSolver.solve defaultConfig [⟨0, 1/2, 127, 4/5⟩]).map (fun t => (t.string, t.fret))
      = [(1, 63)] ∧
    ¬ (∀ t ∈ TabSolver.solve defaultConfig [⟨0, 1/2, 127, 4/5⟩],
        1 ≤ t.string ∧ t.string ≤ 6 ∧ 0 ≤ t.fret ∧ t.fret ≤ 24) := by decide

/-- C4 counterexample: for the chord {41, 88, 64} the enumerator accepts no
tuple (every combination violates the fret span), and with `target_fret = 20`
the fallback assigns the third note to (5, 19) — its candidate closest to the
target — not to its lowest-fret unused candidate (2, 5) as the claim's
"regardless of whether a target fret is set" demands. -/
theorem TabSolver.fallback_target_not_lowest_fret :
    TabSolver.generate_assignments { defaultConfig with target_fret := some 20 }
        ⟨0, [⟨0, 1, 41, 1⟩, ⟨0, 1, 88, 1⟩, ⟨0, 1, 64, 1⟩]⟩ = [] ∧
    TabSolver.fallback_assignment { defaultConfig with target_fret := some 20 }
        ⟨0, [⟨0, 1, 41, 1⟩, ⟨0, 1, 88, 1⟩, ⟨0, 1, 64, 1⟩]⟩ = [(6, 1), (1, 24), (5, 19)] ∧
    TabSolver.greedy_lowest ⟨0, [⟨0, 1, 41, 1⟩, ⟨0, 1, 88, 1⟩, ⟨0, 1, 64, 1⟩]⟩
        = [(6, 1), (1, 24), (2, 5)] ∧
    TabSolver.fallback_assignment { defaultConfig with target_fret := some 20 }
        ⟨0, [⟨0, 1, 41, 1⟩, ⟨0, 1, 88, 1⟩, ⟨0, 1, 64, 1⟩]⟩
      ≠ TabSolver.greedy_lowest ⟨0, [⟨0, 1, 41, 1⟩, ⟨0, 1, 88, 1⟩, ⟨0, 1, 64, 1⟩]⟩ := by decide

/-- C5 counterexample: a note with velocity 0.8 is emitted with GP5 velocity
`int(0.8 * 127) = 101` (truncation), while the claim's
`round(0.8 * 127)` clipped to 0..127 is 102. -/
theorem GuitarProBuilder.velocity_truncated_not_rounded :
    (GuitarProBuilder.build_beats ⟨120, 960⟩ [⟨0, 1/2, 64, 4/5, 1, 0⟩]).map
        (fun b => b.notes.map (fun g => g.velocity)) = [[101]] ∧
    min 127 (max 0 (round ((4 : ℚ)/5 * 127))) = 102 ∧
    (101 : ℤ) ≠ 102 := by decide

/-- C6 counterexample: 2880 ticks is exactly halfway between the whole-note
entry (3840) and the half-note entry (1920); the quantiser returns 1 (the
earlier entry, the LONGER note), not 2 as the claim's tie rule demands. -/
theorem GuitarProBuilder.quantize_halfway_tie_counterexample :
    (2880 - 3840 : ℤ).natAbs = (2880 - 1920 : ℤ).natAbs ∧
    GuitarProBuilder.quantize_duration_value 2880 = 1 ∧
    GuitarProBuilder.quantize_duration_value 2880 ≠ 2 := by decide

end

/-! ## C6: the beat-duration quantiser is a nearest-match with earliest-entry ties -/

namespace GuitarProBuilder

theorem quantAux_some_spec (t : ℤ) : ∀ (l : List (ℤ × ℤ)) (bv : ℤ) (b : ℕ),
    quantAux t bv (some b) l =
      match l with
      | [] => bv
      | e :: rest =>
        if b ≤ listMin1 ((t - e.1).natAbs) (rest.map (fun r => (t - r.1).natAbs)) then bv
        else ((e :: rest).getD
          (listArgmin1 ((t - e.1).natAbs) (rest.map (fun r => (t - r.1).natAbs))) (0, 0)).2 := by
  intro l
  induction l with
  | nil => intro bv b; rfl
  | cons e rest ih =>
    intro bv b
    show (if (t - e.1).natAbs < b then quantAux t e.2 (some ((t - e.1).natAbs)) rest
          else quantAux t bv (some b) rest) = _
    by_cases hde : (t - e.1).natAbs < b
    · rw [if_pos hde, ih]
      cases rest with
      | nil =>
        simp only [listMin1, listArgmin1, List.map_nil, if_neg (not_le.mpr hde)]
        rfl
      | cons e2 rest2 =>
        show (if (t - e.1).natAbs ≤ listMin1 ((t - e2.1).natAbs)
                (rest2.map (fun r => (t - r.1).natAbs)) then e.2
              else ((e2 :: rest2).getD (listArgmin1 ((t - e2.1).natAbs)
                (rest2.map (fun r => (t - r.1).natAbs))) (0, 0)).2) =
          (if b ≤ listMin1 ((t - e.1).natAbs) ((e2 :: rest2).map (fun r => (t - r.1).natAbs))
              then bv
           else ((e :: e2 :: rest2).getD (listArgmin1 ((t - e.1).natAbs)
                ((e2 :: rest2).map (fun r => (t - r.1).natAbs))) (0, 0)).2)
        have houter : ¬ b ≤ listMin1 ((t - e.1).natAbs)
            ((e2 :: rest2).map (fun r => (t - r.1).natAbs)) := by
          simp only [List.map_cons, listMin1]
          exact not_le.mpr (lt_of_le_of_lt (min_le_left _ _) hde)
        rw [if_neg houter]
        by_cases h2 : (t - e.1).natAbs ≤ listMin1 ((t - e2.1).natAbs)
            (rest2.map (fun r => (t - r.1).natAbs))
        · rw [if_pos h2]
          simp [listArgmin1, h2]
        · rw [if_neg h2]
          simp only [List.map_cons, listArgmin1, if_neg h2]
          rfl
    · rw [if_neg hde, ih]
      push_neg at hde
      cases rest with
      | nil =>
        simp only [listMin1, listArgmin1, List.map_nil, if_pos hde]
      | cons e2 rest2 =>
        show (if b ≤ listMin1 ((t - e2.1).natAbs)
                (rest2.map (fun r => (t - r.1).natAbs)) then bv
              else ((e2 :: rest2).getD (listArgmin1 ((t - e2.1).natAbs)
                (rest2.map (fun r => (t - r.1).natAbs))) (0, 0)).2) =
          (if b ≤ listMin1 ((t - e.1).natAbs) ((e2 :: rest2).map (fun r => (t - r.1).natAbs))
              then bv
           else ((e :: e2 :: rest2).getD (listArgmin1 ((t - e.1).natAbs)
                ((e2 :: rest2).map (fun r => (t - r.1).natAbs))) (0, 0)).2)
        by_cases h2 : b ≤ listMin1 ((t - e2.1).natAbs) (rest2.map (fun r => (t - r.1).natAbs))
        · have hcond : b ≤ listMin1 ((t - e.1).natAbs)
              ((e2 :: rest2).map (fun r => (t - r.1).natAbs)) := by
            simp only [List.map_cons, listMin1]
            exact le_min hde h2
          rw [if_pos h2, if_pos hcond]
        · push_neg at h2
          have hmlt : listMin1 ((t - e2.1).natAbs) (rest2.map (fun r => (t - r.1).natAbs))
              < (t - e.1).natAbs := lt_of_lt_of_le h2 hde
          have hcond : ¬ b ≤ listMin1 ((t - e.1).natAbs)
              ((e2 :: rest2).map (fun r => (t - r.1).natAbs)) := by
            simp only [List.map_cons, listMin1, min_eq_right (le_of_lt hmlt)]
            exact not_le.mpr h2
          rw [if_neg (not_le.mpr h2), if_neg hcond]
          simp only [List.map_cons, listArgmin1, if_neg (not_le.mpr hmlt)]
          rfl

theorem quantAux_none_spec (t bv0 : ℤ) (e : ℤ × ℤ) (rest : List (ℤ × ℤ)) :
    quantAux t bv0 none (e :: rest) =
      ((e :: rest).getD
        (listArgmin1 ((t - e.1).natAbs) (rest.map (fun r => (t - r.1).natAbs))) (0, 0)).2 := by
  show quantAux t e.2 (some ((t - e.1).natAbs)) rest = _
  rw [quantAux_some_spec]
  cases rest with
  | nil => simp [listArgmin1]
  | cons e2 rest2 =>
    show (if (t - e.1).natAbs ≤ listMin1 ((t - e2.1).natAbs)
            (rest2.map (fun r => (t - r.1).natAbs)) then e.2
          else ((e2 :: rest2).getD (listArgmin1 ((t - e2.1).natAbs)
            (rest2.map (fun r => (t - r.1).natAbs))) (0, 0)).2) =
      ((e :: e2 :: rest2).getD (listArgmin1 ((t - e.1).natAbs)
        ((e2 :: rest2).map (fun r => (t - r.1).natAbs))) (0, 0)).2
    by_cases h2 : (t - e.1).natAbs ≤ listMin1 ((t - e2.1).natAbs)
        (rest2.map (fun r => (t - r.1).natAbs))
    · rw [if_pos h2]
      simp [listArgmin1, List.map_cons, h2]
    · rw [if_neg h2]
      simp only [List.map_cons, listArgmin1, if_neg h2]
      rfl

theorem getD_map_diff (t : ℤ) : ∀ (l : List (ℤ × ℤ)) (i : ℕ), i < l.length →
    (l.map (fun r => (t - r.1).natAbs)).getD i ((t - (0:ℤ)).natAbs)
      = (t - (l.getD i (0, 0)).1).natAbs := by
  intro l
  induction l with
  | nil => intro i hi; simp at hi
  | cons e rest ih =>
    intro i hi
    cases i with
    | zero => rfl
    | succ j =>
      have hj : j < rest.length := by simpa using hi
      simpa using ih j hj

theorem quantize_like_nearest (t : ℤ) (e : ℤ × ℤ) (rest : List (ℤ × ℤ)) :
    ∃ i : ℕ, i < (e :: rest).length ∧
      quantAux t 64 none (e :: rest) = (((e :: rest)).getD i (0, 0)).2 ∧
      (∀ x ∈ e :: rest,
        (t - ((e :: rest).getD i (0, 0)).1).natAbs ≤ (t - x.1).natAbs) ∧
      ∀ j < i, (t - ((e :: rest).getD i (0, 0)).1).natAbs
          < (t - ((e :: rest).getD j (0, 0)).1).natAbs := by
  set diffs := rest.map (fun r => (t - r.1).natAbs) with hdiffs
  refine ⟨listArgmin1 ((t - e.1).natAbs) diffs, ?_, ?_, ?_, ?_⟩
  · have := listArgmin1_lt_length ((t - e.1).natAbs) diffs
    simpa [hdiffs] using this
  · exact quantAux_none_spec t 64 e rest
  · intro x hx
    have hlen : listArgmin1 ((t - e.1).natAbs) diffs < (e :: rest).length := by
      have := listArgmin1_lt_length ((t - e.1).natAbs) diffs
      simpa [hdiffs] using this
    have hdm : ((e :: rest).map (fun r => (t - r.1).natAbs)).getD
        (listArgmin1 ((t - e.1).natAbs) diffs) ((t - (0:ℤ)).natAbs)
        = (t - ((e :: rest).getD (listArgmin1 ((t - e.1).natAbs) diffs) (0, 0)).1).natAbs :=
      getD_map_diff t (e :: rest) _ hlen
    have hmin : ((e :: rest).map (fun r => (t - r.1).natAbs)).getD
        (listArgmin1 ((t - e.1).natAbs) diffs) ((t - (0:ℤ)).natAbs)
        = listMin1 ((t - e.1).natAbs) diffs := by
      simpa [hdiffs] using getD_listArgmin1 ((t - e.1).natAbs) diffs ((t - (0:ℤ)).natAbs)
    rw [← hdm, hmin]
    rcases List.mem_cons.mp hx with rfl | hx2
    · exact listMin1_le_head _ _
    · exact listMin1_le_mem (hdiffs ▸ List.mem_map_of_mem _ hx2)
  · intro j hj
    have hlen : listArgmin1 ((t - e.1).natAbs) diffs < (e :: rest).length := by
      have := listArgmin1_lt_length ((t - e.1).natAbs) diffs
      simpa [hdiffs] using this
    have hjlen : j < (e :: rest).length := lt_trans hj hlen
    have hdmi : ((e :: rest).map (fun r => (t - r.1).natAbs)).getD
        (listArgmin1 ((t - e.1).natAbs) diffs) ((t - (0:ℤ)).natAbs)
        = (t - ((e :: rest).getD (listArgmin1 ((t - e.1).natAbs) diffs) (0, 0)).1).natAbs :=
      getD_map_diff t (e :: rest) _ hlen
    have hdmj : ((e :: rest).map (fun r => (t - r.1).natAbs)).getD j ((t - (0:ℤ)).natAbs)
        = (t - ((e :: rest).getD j (0, 0)).1).natAbs :=
      getD_map_diff t (e :: rest) j hjlen
    have hmin : ((e :: rest).map (fun r => (t - r.1).natAbs)).getD
        (listArgmin1 ((t - e.1).natAbs) diffs) ((t - (0:ℤ)).natAbs)
        = listMin1 ((t - e.1).natAbs) diffs := by
      simpa [hdiffs] using getD_listArgmin1 ((t - e.1).natAbs) diffs ((t - (0:ℤ)).natAbs)
    rw [← hdmi, ← hdmj, hmin]
    have := getD_lt_of_lt_listArgmin1 (v := (t - e.1).natAbs) (l := diffs)
      ((t - (0:ℤ)).natAbs) hj
    simpa [hdiffs] using this

end GuitarProBuilder

/-- C6 amended: for every tick count, the quantiser returns the value of a
DURATION_MAP entry whose tick reference minimises the absolute difference to
the input, and every STRICTLY EARLIER entry has a strictly larger difference
(so equidistant ties go to the earlier entry: the longer note, LOWER value). -/
theorem GuitarProBuilder.quantize_nearest_earliest (ticks : ℤ) :
    ∃ i : ℕ, i < GuitarProBuilder.DURATION_MAP.length ∧
      GuitarProBuilder.quantize_duration_value ticks
        = (GuitarProBuilder.DURATION_MAP.getD i (0, 0)).2 ∧
      (∀ e ∈ GuitarProBuilder.DURATION_MAP,
        (ticks - (GuitarProBuilder.DURATION_MAP.getD i (0, 0)).1).natAbs
          ≤ (ticks - e.1).natAbs) ∧
      ∀ j < i, (ticks - (GuitarProBuilder.DURATION_MAP.getD i (0, 0)).1).natAbs
          < (ticks - (GuitarProBuilder.DURATION_MAP.getD j (0, 0)).1).natAbs :=
  GuitarProBuilder.quantize_like_nearest ticks (3840, 1)
    [(1920, 2), (960, 4), (480, 8), (240, 16), (120, 32), (60, 64)]

/-! ## C5: emitted GP5 velocities are truncations of `velocity * 127` -/

namespace GuitarProBuilder

theorem mem_beats_go : ∀ (l grp : List (ℤ × ℤ × TabNote)) (cs : ℤ)
    (bg : ℤ × List (ℤ × ℤ × TabNote)) (x : ℤ × ℤ × TabNote),
    bg ∈ beats_go cs grp l → x ∈ bg.2 → x ∈ grp ∨ x ∈ l := by
  intro l
  induction l with
  | nil =>
    intro grp cs bg x hbg hx
    simp only [beats_go, List.mem_singleton] at hbg
    subst hbg
    exact Or.inl hx
  | cons tn rest ih =>
    intro grp cs bg x hbg hx
    simp only [beats_go] at hbg
    by_cases hcond : (tn.1 - cs).natAbs ≤ 30
    · rw [if_pos hcond] at hbg
      rcases ih (grp ++ [tn]) cs bg x hbg hx with h | h
      · rcases List.mem_append.mp h with h2 | h2
        · exact Or.inl h2
        · exact Or.inr (by simp at h2; simp [h2])
      · exact Or.inr (List.mem_cons_of_mem _ h)
    · rw [if_neg hcond] at hbg
      rcases List.mem_cons.mp hbg with rfl | h
      · exact Or.inl hx
      · rcases ih [tn] tn.1 bg x h hx with h2 | h2
        · exact Or.inr (by simp at h2; simp [h2])
        · exact Or.inr (List.mem_cons_of_mem _ h2)

theorem mem_group_into_beats (tick : List (ℤ × ℤ × TabNote))
    (bg : ℤ × List (ℤ × ℤ × TabNote)) (x : ℤ × ℤ × TabNote)
    (hbg : bg ∈ group_into_beats tick) (hx : x ∈ bg.2) : x ∈ tick := by
  unfold group_into_beats at hbg
  rcases hsort : List.insertionSort (fun a b : ℤ × ℤ × TabNote => a.1 ≤ b.1) tick with
    _ | ⟨c, rest⟩
  · rw [hsort] at hbg
    simp at hbg
  · rw [hsort] at hbg
    have hmem : x ∈ c :: rest := by
      rcases mem_beats_go rest [c] c.1 bg x hbg hx with h | h
      · simp at h; simp [h]
      · exact List.mem_cons_of_mem _ h
    rw [← hsort] at hmem
    exact ((List.perm_insertionSort _ tick).mem_iff).mp hmem

end GuitarProBuilder

/-- C5 amended: every note record emitted into the GP5 beats carries the
string and fret of a source TabNote together with velocity
`int(velocity * 127)` — truncation toward zero, with no clipping. -/
theorem GuitarProBuilder.velocity_eq_trunc_of_mem (cfg : GuitarProBuilder.GPConfig)
    (tab_notes : List TabNote) :
    ∀ b ∈ GuitarProBuilder.build_beats cfg tab_notes, ∀ g ∈ b.notes,
      ∃ tn ∈ tab_notes, g.string = tn.string ∧ g.fret = tn.fret ∧
        g.velocity = pyInt (tn.velocity * 127) := by
  intro b hb g hg
  unfold GuitarProBuilder.build_beats at hb
  rcases List.mem_map.mp hb with ⟨bg, hbg, rfl⟩
  simp only at hg
  rcases List.mem_map.mp hg with ⟨x, hx, rfl⟩
  have hxt : x ∈ GuitarProBuilder.tick_notes cfg tab_notes :=
    GuitarProBuilder.mem_group_into_beats _ bg x hbg hx
  unfold GuitarProBuilder.tick_notes at hxt
  rcases List.mem_map.mp hxt with ⟨tn, htn, rfl⟩
  exact ⟨tn, htn, rfl, rfl, rfl⟩

section

attribute [local semireducible] Rat.add Rat.mul Rat.sub Rat.inv

/-- C5 amended, witnessed at a concrete input: the single note with velocity
0.8 is emitted as the GP note (1, 0, 101) with 101 = int(0.8 * 127). -/
theorem GuitarProBuilder.velocity_eq_trunc_of_mem_witness :
    ∃ tn ∈ ([⟨0, 1/2, 64, 4/5, 1, 0⟩] : List TabNote),
      (⟨1, 0, 101⟩ : GuitarProBuilder.GPNote).string = tn.string ∧
      (⟨1, 0, 101⟩ : GuitarProBuilder.GPNote).fret = tn.fret ∧
      (⟨1, 0, 101⟩ : GuitarProBuilder.GPNote).velocity = pyInt (tn.velocity * 127) :=
  GuitarProBuilder.velocity_eq_trunc_of_mem ⟨120, 960⟩ [⟨0, 1/2, 64, 4/5, 1, 0⟩]
    ⟨0, 4, [⟨1, 0, 101⟩]⟩ (by decide) ⟨1, 0, 101⟩ (by decide)

end

/-! ## C4: the fallback with no target fret is the greedy lowest-fret rule -/

namespace TabSolver

theorem mem_candidates_form (p : ℤ) {c : ℤ × ℤ} (hc : c ∈ candidates_for_pitch p) :
    (c.1, p - c.2) ∈ STANDARD_TUNING ∧ 0 ≤ c.2 ∧ c.2 ≤ MAX_FRET := by
  unfold candidates_for_pitch at hc
  rcases List.mem_filterMap.mp hc with ⟨sp, hsp, hspc⟩
  simp only at hspc
  by_cases h : 0 ≤ p - sp.2 ∧ p - sp.2 ≤ MAX_FRET
  · rw [if_pos h] at hspc
    injection hspc with he
    subst he
    refine ⟨?_, h.1, h.2⟩
    simpa using hsp
  · rw [if_neg h] at hspc
    cases hspc

theorem candidates_inj (p : ℤ) {c d : ℤ × ℤ} (hc : c ∈ candidates_for_pitch p)
    (hd : d ∈ candidates_for_pitch p) (h2 : c.2 = d.2) : c = d := by
  have hcf := (mem_candidates_form p hc).1
  have hdf := (mem_candidates_form p hd).1
  simp only [STANDARD_TUNING, List.mem_cons, List.mem_singleton, Prod.mk.injEq,
    List.not_mem_nil, or_false] at hcf hdf
  rcases hcf with ⟨h1, h1b⟩ | ⟨h1, h1b⟩ | ⟨h1, h1b⟩ | ⟨h1, h1b⟩ | ⟨h1, h1b⟩ | ⟨h1, h1b⟩ <;>
    rcases hdf with ⟨h3, h3b⟩ | ⟨h3, h3b⟩ | ⟨h3, h3b⟩ | ⟨h3, h3b⟩ | ⟨h3, h3b⟩ | ⟨h3, h3b⟩ <;>
    exact Prod.ext (by omega) h2

theorem minByFret1_mem (c : ℤ × ℤ) (cs : List (ℤ × ℤ)) : minByFret1 c cs ∈ c :: cs := by
  induction cs generalizing c with
  | nil => simp [minByFret1]
  | cons d ds ih =>
    by_cases h : c.2 ≤ (minByFret1 d ds).2
    · simp [minByFret1, h]
    · simp only [minByFret1, if_neg h]
      exact List.mem_cons_of_mem _ (ih d)

theorem minByFret1_le (c : ℤ × ℤ) (cs : List (ℤ × ℤ)) :
    ∀ x ∈ c :: cs, (minByFret1 c cs).2 ≤ x.2 := by
  induction cs generalizing c with
  | nil => intro x hx; simp at hx; simp [minByFret1, hx]
  | cons d ds ih =>
    intro x hx
    rcases List.mem_cons.mp hx with rfl | hx2
    · by_cases h : x.2 ≤ (minByFret1 d ds).2
      · simp [minByFret1, h]
      · simp only [minByFret1, if_neg h]
        exact le_of_lt (lt_of_le_of_lt (ih d _ (minByFret1_mem d ds)) (not_le.mp h))
    · by_cases h : c.2 ≤ (minByFret1 d ds).2
      · simp only [minByFret1, if_pos h]
        exact le_trans h (ih d x hx2)
      · simp only [minByFret1, if_neg h]
        exact ih d x hx2

theorem find?_sorted_min (p : ℤ × ℤ → Bool) : ∀ (l : List (ℤ × ℤ)),
    List.Sorted (fun a b : ℤ × ℤ => a.2 ≤ b.2) l →
    ∀ c, l.find? p = some c → c ∈ l ∧ p c = true ∧ ∀ x ∈ l, p x = true → c.2 ≤ x.2 := by
  intro l
  induction l with
  | nil => intro _ c hc; simp at hc
  | cons h t ih =>
    intro hs c hc
    by_cases hph : p h
    · rw [List.find?_cons_of_pos _ hph] at hc
      injection hc with hc
      subst hc
      refine ⟨List.mem_cons_self _ _, hph, ?_⟩
      intro x hx _
      rcases List.mem_cons.mp hx with rfl | hx2
      · exact le_refl _
      · exact (List.sorted_cons.mp hs).1 x hx2
    · rw [List.find?_cons_of_neg _ hph] at hc
      rcases ih (List.sorted_cons.mp hs).2 c hc with ⟨hmem, hpc, hmin⟩
      refine ⟨List.mem_cons_of_mem _ hmem, hpc, ?_⟩
      intro x hx hpx
      rcases List.mem_cons.mp hx with rfl | hx2
      · exact absurd hpx (by simpa using hph)
      · exact hmin x hx2 hpx

theorem sorted_insertionSort_fret (l : List (ℤ × ℤ)) :
    List.Sorted (fun a b : ℤ × ℤ => a.2 ≤ b.2)
      (List.insertionSort (fun a b : ℤ × ℤ => a.2 ≤ b.2) l) := by
  haveI : IsTotal (ℤ × ℤ) (fun a b : ℤ × ℤ => a.2 ≤ b.2) := ⟨fun a b => le_total a.2 b.2⟩
  haveI : IsTrans (ℤ × ℤ) (fun a b : ℤ × ℤ => a.2 ≤ b.2) := ⟨fun _ _ _ h1 h2 => le_trans h1 h2⟩
  exact List.sorted_insertionSort _ l

theorem fallback_step_eq (used : List ℤ) (p : ℤ) :
    (List.insertionSort (fun a b : ℤ × ℤ => a.2 ≤ b.2) (candidates_for_pitch p)).find?
        (fun sf => !(used.contains sf.1)) =
      match (candidates_for_pitch p).filter (fun sf => !(used.contains sf.1)) with
      | [] => none
      | c :: cs => some (minByFret1 c cs) := by
  set pr : ℤ × ℤ → Bool := fun sf => !(used.contains sf.1) with hpr
  set srt := List.insertionSort (fun a b : ℤ × ℤ => a.2 ≤ b.2) (candidates_for_pitch p) with hsrt
  have hperm : srt.Perm (candidates_for_pitch p) := List.perm_insertionSort _ _
  rcases hf : srt.find? pr with _ | c
  · have hall : ∀ x ∈ srt, ¬ pr x = true := by
      intro x hx
      exact (List.find?_eq_none.mp hf) x hx
    have hfil : (candidates_for_pitch p).filter pr = [] := by
      rw [List.filter_eq_nil_iff]
      intro x hx
      exact hall x (hperm.mem_iff.mpr hx)
    rw [hfil]
  · rcases find?_sorted_min pr srt (hsrt ▸ sorted_insertionSort_fret _) c hf with ⟨hmem, hpc, hmin⟩
    rcases hfil : (candidates_for_pitch p).filter pr with _ | ⟨c0, cs0⟩
    · exfalso
      have : c ∈ (candidates_for_pitch p).filter pr :=
        List.mem_filter.mpr ⟨hperm.mem_iff.mp hmem, hpc⟩
      rw [hfil] at this
      simp at this
    · have hm := minByFret1_mem c0 cs0
      rw [← hfil] at hm
      have hmcand : minByFret1 c0 cs0 ∈ candidates_for_pitch p :=
        (List.mem_filter.mp hm).1
      have hmp : pr (minByFret1 c0 cs0) = true := (List.mem_filter.mp hm).2
      have h1 : c.2 ≤ (minByFret1 c0 cs0).2 :=
        hmin _ (hperm.mem_iff.mpr hmcand) hmp
      have h2 : (minByFret1 c0 cs0).2 ≤ c.2 := by
        have hcfil : c ∈ (candidates_for_pitch p).filter pr :=
          List.mem_filter.mpr ⟨hperm.mem_iff.mp hmem, hpc⟩
        rw [hfil] at hcfil
        exact minByFret1_le c0 cs0 c hcfil
      have : c = minByFret1 c0 cs0 :=
        candidates_inj p (hperm.mem_iff.mp hmem) hmcand (le_antisymm h1 h2)
      rw [this]

theorem fallback_aux_eq_greedy (cfg : SolverConfig) (hcfg : cfg.target_fret = none) :
    ∀ (ns : List NoteEvent) (used : List ℤ),
      fallback_assignment_aux cfg used ns = greedy_lowest_aux used ns := by
  obtain ⟨w, mfs, pjw, sw, hfw, mc, tf⟩ := cfg
  change tf = none at hcfg
  subst hcfg
  intro ns
  induction ns with
  | nil => intro used; rfl
  | cons nt rest ih =>
    intro used
    show (match (List.insertionSort (fun a b : ℤ × ℤ => a.2 ≤ b.2)
            (candidates_for_pitch nt.midi_pitch)).find? (fun sf => !(used.contains sf.1)) with
        | some sf => sf :: fallback_assignment_aux ⟨w, mfs, pjw, sw, hfw, mc, none⟩ (sf.1 :: used) rest
        | none => (1, max 0 (nt.midi_pitch - 64)) ::
            fallback_assignment_aux ⟨w, mfs, pjw, sw, hfw, mc, none⟩ used rest)
      = greedy_lowest_aux used (nt :: rest)
    rw [fallback_step_eq used nt.midi_pitch]
    rcases hfil : (candidates_for_pitch nt.midi_pitch).filter
        (fun sf => !(used.contains sf.1)) with _ | ⟨c0, cs0⟩
    · have hgr : greedy_lowest_aux used (nt :: rest)
          = (1, max 0 (nt.midi_pitch - 64)) :: greedy_lowest_aux used rest := by
        show (match (candidates_for_pitch nt.midi_pitch).filter
            (fun sf => !(used.contains sf.1)) with
          | [] => (1, max 0 (nt.midi_pitch - 64)) :: greedy_lowest_aux used rest
          | c :: cs => minByFret1 c cs :: greedy_lowest_aux ((minByFret1 c cs).1 :: used) rest) = _
        rw [hfil]
      rw [hfil, hgr]
      show (1, max 0 (nt.midi_pitch - 64)) ::
          fallback_assignment_aux ⟨w, mfs, pjw, sw, hfw, mc, none⟩ used rest = _
      rw [ih used]
    · have hgr : greedy_lowest_aux used (nt :: rest)
          = minByFret1 c0 cs0 :: greedy_lowest_aux ((minByFret1 c0 cs0).1 :: used) rest := by
        show (match (candidates_for_pitch nt.midi_pitch).filter
            (fun sf => !(used.contains sf.1)) with
          | [] => (1, max 0 (nt.midi_pitch - 64)) :: greedy_lowest_aux used rest
          | c :: cs => minByFret1 c cs :: greedy_lowest_aux ((minByFret1 c cs).1 :: used) rest) = _
        rw [hfil]
      rw [hfil, hgr]
      show minByFret1 c0 cs0 ::
          fallback_assignment_aux ⟨w, mfs, pjw, sw, hfw, mc, none⟩ ((minByFret1 c0 cs0).1 :: used) rest = _
      rw [ih ((minByFret1 c0 cs0).1 :: used)]

end TabSolver

/-- C4 amended: for every chord group for which the enumerator accepts no
tuple, when NO target fret is set the fallback assignment assigns each note,
in chord order, to its lowest-fret candidate whose string is not yet used,
forcing `(1, max(0, pitch-64))` when no candidate is available.  (With a
target fret set, candidates are tried by proximity to the target instead —
see the counterexample.) -/
theorem TabSolver.fallback_lowest_fret_of_no_target (cfg : SolverConfig) (chord : ChordGroup)
    (hgen : TabSolver.generate_assignments cfg chord = [])
    (htarget : cfg.target_fret = none) :
    TabSolver.fallback_assignment cfg chord = TabSolver.greedy_lowest chord :=
  TabSolver.fallback_aux_eq_greedy cfg htarget chord.notes []

/-- C4 amended, witnessed at a concrete chord: {41, 88} under the default
configuration (no target fret) has no accepted tuple, and the fallback equals
the greedy lowest-fret assignment. -/
theorem TabSolver.fallback_lowest_fret_of_no_target_witness :
    TabSolver.generate_assignments defaultConfig ⟨0, [⟨0, 1, 41, 1⟩, ⟨0, 1, 88, 1⟩]⟩ = [] ∧
    defaultConfig.target_fret = none ∧
    TabSolver.fallback_assignment defaultConfig ⟨0, [⟨0, 1, 41, 1⟩, ⟨0, 1, 88, 1⟩]⟩
      = TabSolver.greedy_lowest ⟨0, [⟨0, 1, 41, 1⟩, ⟨0, 1, 88, 1⟩]⟩ :=
  ⟨by decide, rfl,
    TabSolver.fallback_lowest_fret_of_no_target defaultConfig _ (by decide) rfl⟩

/-! ## C2: string/fret ranges for inputs within the guitar's pitch range -/

namespace TabSolver

theorem mem_candidates_bounds (p : ℤ) {c : ℤ × ℤ} (hc : c ∈ candidates_for_pitch p) :
    1 ≤ c.1 ∧ c.1 ≤ 6 ∧ 0 ≤ c.2 ∧ c.2 ≤ 24 := by
  rcases mem_candidates_form p hc with ⟨hst, hf0, hf24⟩
  have h24 : c.2 ≤ 24 := hf24
  simp only [STANDARD_TUNING, List.mem_cons, List.mem_singleton, Prod.mk.injEq,
    List.not_mem_nil, or_false] at hst
  rcases hst with ⟨h1, _⟩ | ⟨h1, _⟩ | ⟨h1, _⟩ | ⟨h1, _⟩ | ⟨h1, _⟩ | ⟨h1, _⟩ <;>
    exact ⟨by omega, by omega, hf0, h24⟩

theorem mem_group_chords_go (w : ℚ) : ∀ (l acc : List NoteEvent) (head : NoteEvent)
    (c : ChordGroup) (m : NoteEvent),
    c ∈ group_chords_go w head acc l → m ∈ c.notes → m = head ∨ m ∈ acc ∨ m ∈ l := by
  intro l
  induction l with
  | nil =>
    intro acc head c m hc hm
    simp only [group_chords_go, List.mem_singleton] at hc
    subst hc
    rcases List.mem_cons.mp hm with rfl | hm2
    · exact Or.inl rfl
    · exact Or.inr (Or.inl hm2)
  | cons x xs ih =>
    intro acc head c m hc hm
    simp only [group_chords_go] at hc
    by_cases hcond : x.start_time - head.start_time ≤ w
    · rw [if_pos hcond] at hc
      rcases ih (acc ++ [x]) head c m hc hm with h | h | h
      · exact Or.inl h
      · rcases List.mem_append.mp h with h2 | h2
        · exact Or.inr (Or.inl h2)
        · exact Or.inr (Or.inr (by simp at h2; simp [h2]))
      · exact Or.inr (Or.inr (List.mem_cons_of_mem _ h))
    · rw [if_neg hcond] at hc
      rcases List.mem_cons.mp hc with rfl | h
      · rcases List.mem_cons.mp hm with rfl | hm2
        · exact Or.inl rfl
        · exact Or.inr (Or.inl hm2)
      · rcases ih [] x c m h hm with h2 | h2 | h2
        · exact Or.inr (Or.inr (by simp [h2]))
        · simp at h2
        · exact Or.inr (Or.inr (List.mem_cons_of_mem _ h2))

theorem mem_listProd : ∀ (ls : List (List (ℤ × ℤ))) (a : List (ℤ × ℤ)),
    a ∈ listProd ls → ∀ x ∈ a, ∃ cl ∈ ls, x ∈ cl := by
  intro ls
  induction ls with
  | nil =>
    intro a ha x hx
    simp only [listProd, List.mem_singleton] at ha
    subst ha
    cases hx
  | cons cands rest ih =>
    intro a ha x hx
    simp only [listProd, List.mem_flatMap, List.mem_map] at ha
    rcases ha with ⟨c, hc, ⟨tail, htail, rfl⟩⟩
    rcases List.mem_cons.mp hx with rfl | hx2
    · exact ⟨cands, List.mem_cons_self _ _, hc⟩
    · rcases ih tail htail x hx2 with ⟨cl, hcl, hxcl⟩
      exact ⟨cl, List.mem_cons_of_mem _ hcl, hxcl⟩

theorem mem_filterUpTo (p : List (ℤ × ℤ) → Bool) (m : ℤ) :
    ∀ (l : List (List (ℤ × ℤ))) (cnt : ℤ) (x : List (ℤ × ℤ)),
    x ∈ filterUpTo p m cnt l → x ∈ l := by
  intro l
  induction l with
  | nil => intro cnt x hx; cases hx
  | cons c rest ih =>
    intro cnt x hx
    simp only [filterUpTo] at hx
    by_cases hp : p c
    · rw [if_pos hp] at hx
      by_cases hm : m ≤ cnt + 1
      · rw [if_pos hm] at hx
        simp at hx
        simp [hx]
      · rw [if_neg hm] at hx
        rcases List.mem_cons.mp hx with rfl | h
        · exact List.mem_cons_self _ _
        · exact List.mem_cons_of_mem _ (ih _ x h)
    · rw [if_neg hp] at hx
      exact List.mem_cons_of_mem _ (ih _ x hx)

theorem mem_generate_assignments (cfg : SolverConfig) (chord : ChordGroup)
    {a : ChordAssignment} (ha : a ∈ generate_assignments cfg chord) :
    ∀ sf ∈ a, ∃ nt ∈ chord.notes, sf ∈ candidates_for_pitch nt.midi_pitch := by
  intro sf hsf
  unfold generate_assignments at ha
  by_cases hempty : (chord.notes.map (fun nt => candidates_for_pitch nt.midi_pitch)).any
      List.isEmpty
  · rw [if_pos hempty] at ha
    cases ha
  · rw [if_neg hempty] at ha
    have ha2 : a ∈ filterUpTo (validCombo cfg.max_fret_span) cfg.max_combos 0
        (listProd (chord.notes.map (fun nt => candidates_for_pitch nt.midi_pitch))) := by
      rcases htf : cfg.target_fret with _ | t
      · rw [htf] at ha
        exact ha
      · rw [htf] at ha
        exact (List.mem_insertionSort _).mp ha
    have ha3 := mem_filterUpTo _ _ _ _ _ ha2
    rcases mem_listProd _ a ha3 sf hsf with ⟨cl, hcl, hsfcl⟩
    rcases List.mem_map.mp hcl with ⟨nt, hnt, rfl⟩
    exact ⟨nt, hnt, hsfcl⟩

theorem mem_fallback_sorted (cfg : SolverConfig) (p : ℤ) {x : ℤ × ℤ}
    (hx : x ∈ fallback_sorted cfg p) : x ∈ candidates_for_pitch p := by
  unfold fallback_sorted at hx
  rcases htf : cfg.target_fret with _ | t <;> rw [htf] at hx <;>
    exact (List.mem_insertionSort _).mp hx

theorem mem_fallback_aux (cfg : SolverConfig) : ∀ (ns : List NoteEvent) (used : List ℤ)
    (sf : ℤ × ℤ), sf ∈ fallback_assignment_aux cfg used ns →
    (∃ nt ∈ ns, sf ∈ candidates_for_pitch nt.midi_pitch) ∨
    (∃ nt ∈ ns, sf = (1, max 0 (nt.midi_pitch - 64))) := by
  intro ns
  induction ns with
  | nil => intro used sf h; cases h
  | cons nt rest ih =>
    intro used sf h
    rcases hfind : (fallback_sorted cfg nt.midi_pitch).find?
        (fun sf => !(used.contains sf.1)) with _ | c
    · rw [show fallback_assignment_aux cfg used (nt :: rest) =
          (match (fallback_sorted cfg nt.midi_pitch).find? (fun sf => !(used.contains sf.1)) with
           | some sf => sf :: fallback_assignment_aux cfg (sf.1 :: used) rest
           | none => (1, max 0 (nt.midi_pitch - 64)) :: fallback_assignment_aux cfg used rest)
          from rfl, hfind] at h
      rcases List.mem_cons.mp h with rfl | h2
      · exact Or.inr ⟨nt, List.mem_cons_self _ _, rfl⟩
      · rcases ih used sf h2 with ⟨nt2, hnt2, hc⟩ | ⟨nt2, hnt2, hc⟩
        · exact Or.inl ⟨nt2, List.mem_cons_of_mem _ hnt2, hc⟩
        · exact Or.inr ⟨nt2, List.mem_cons_of_mem _ hnt2, hc⟩
    · rw [show fallback_assignment_aux cfg used (nt :: rest) =
          (match (fallback_sorted cfg nt.midi_pitch).find? (fun sf => !(used.contains sf.1)) with
           | some sf => sf :: fallback_assignment_aux cfg (sf.1 :: used) rest
           | none => (1, max 0 (nt.midi_pitch - 64)) :: fallback_assignment_aux cfg used rest)
          from rfl, hfind] at h
      rcases List.mem_cons.mp h with rfl | h2
      · exact Or.inl ⟨nt, List.mem_cons_self _ _,
          mem_fallback_sorted cfg nt.midi_pitch (List.mem_of_find?_eq_some hfind)⟩
      · rcases ih (c.1 :: used) sf h2 with ⟨nt2, hnt2, hc⟩ | ⟨nt2, hnt2, hc⟩
        · exact Or.inl ⟨nt2, List.mem_cons_of_mem _ hnt2, hc⟩
        · exact Or.inr ⟨nt2, List.mem_cons_of_mem _ hnt2, hc⟩

/-- Bounds for every pair in any assignment the solver can pick for a chord
whose pitches are at most 88. -/
theorem assignment_bounds (cfg : SolverConfig) (chord : ChordGroup)
    (hp : ∀ nt ∈ chord.notes, nt.midi_pitch ≤ 88)
    {a : ChordAssignment}
    (ha : a ∈ (if (generate_assignments cfg chord).isEmpty
      then [fallback_assignment cfg chord] else generate_assignments cfg chord)) :
    ∀ sf ∈ a, 1 ≤ sf.1 ∧ sf.1 ≤ 6 ∧ 0 ≤ sf.2 ∧ sf.2 ≤ 24 := by
  intro sf hsf
  by_cases hgen : (generate_assignments cfg chord).isEmpty
  · rw [if_pos hgen] at ha
    simp only [List.mem_singleton] at ha
    subst ha
    rcases mem_fallback_aux cfg chord.notes [] sf hsf with ⟨nt, _, hc⟩ | ⟨nt, hnt, hc⟩
    · exact mem_candidates_bounds _ hc
    · have hle := hp nt hnt
      subst hc
      refine ⟨le_refl _, by norm_num, le_max_left _ _, ?_⟩
      simp only
      omega
  · rw [if_neg hgen] at ha
    rcases mem_generate_assignments cfg chord ha sf hsf with ⟨nt, _, hc⟩
    exact mem_candidates_bounds _ hc

theorem mem_getD_or_default {α : Type} (l : List α) (n : ℕ) (d : α) :
    l.getD n d ∈ l ∨ l.getD n d = d := by
  by_cases h : n < l.length
  · left
    rw [List.getD_eq_getElem?_getD, List.getElem?_eq_getElem h]
    exact List.getElem_mem h
  · right
    rw [List.getD_eq_getElem?_getD, List.getElem?_eq_none (by omega)]
    rfl

theorem mem_expandChords (chords : List ChordGroup) (A : List (List ChordAssignment))
    (path : List ℕ) {t : TabNote} (ht : t ∈ expandChords chords A path) :
    ∃ c ∈ chords, ∃ row idx, (row, idx) ∈ A.zip path ∧
      ∃ nt ∈ c.notes, ∃ sf : ℤ × ℤ, sf ∈ row.getD idx [] ∧
        t.string = sf.1 ∧ t.fret = sf.2 ∧ t.midi_pitch = nt.midi_pitch := by
  unfold expandChords at ht
  rcases List.mem_flatMap.mp ht with ⟨cap, hcap, hmem⟩
  rcases List.mem_map.mp hmem with ⟨na, hna, rfl⟩
  rcases List.of_mem_zip hcap with ⟨hc, hrow⟩
  rcases List.of_mem_zip hna with ⟨hnt, hsf⟩
  exact ⟨cap.1, hc, cap.2.1, cap.2.2, hrow, na.1, hnt, na.2, hsf, rfl, rfl, rfl⟩

end TabSolver

/-- C2 amended: for every configuration and every input note list whose notes
satisfy the data-model bounds with `midi_pitch ≤ 88` (the guitar's top pitch),
every TabNote returned by `solve` has `1 ≤ string ≤ 6` and `0 ≤ fret ≤ 24` —
including fallback assignments. -/
theorem TabSolver.solve_range_of_pitch_le_88 (cfg : SolverConfig) (notes : List NoteEvent)
    (h : ∀ n ∈ notes, 0 ≤ n.midi_pitch ∧ n.midi_pitch ≤ 88 ∧ 0 ≤ n.velocity ∧
      n.velocity ≤ 1 ∧ 0 ≤ n.start_time ∧ n.start_time < n.end_time) :
    ∀ t ∈ TabSolver.solve cfg notes, 1 ≤ t.string ∧ t.string ≤ 6 ∧ 0 ≤ t.fret ∧ t.fret ≤ 24 := by
  intro t ht
  unfold TabSolver.solve at ht
  rcases hsort : List.insertionSort (fun a b : NoteEvent => a.start_time ≤ b.start_time) notes
    with _ | ⟨n, rest⟩
  · rw [hsort] at ht
    cases ht
  · rw [hsort] at ht
    have hmemsort : ∀ m : NoteEvent, m ∈ n :: rest → m ∈ notes := by
      intro m hm
      rw [← hsort] at hm
      exact ((List.perm_insertionSort _ notes).mem_iff).mp hm
    have ht1 : t ∈ TabSolver.solve_dp cfg (TabSolver.group_chords_go cfg.chord_window n [] rest)
        ((TabSolver.group_chords_go cfg.chord_window n [] rest).map
          (TabSolver.chord_assignments cfg)) := ht
    rcases hAcase : (TabSolver.group_chords_go cfg.chord_window n [] rest).map
        (TabSolver.chord_assignments cfg) with _ | ⟨A0, Arest⟩
    · rw [hAcase] at ht1
      cases ht1
    · rw [hAcase] at ht1
      have ht2 := (List.mem_insertionSort TabSolver.tabLe).mp ht1
      rw [← hAcase] at ht2
      rcases TabSolver.mem_expandChords _ _ _ ht2 with
        ⟨c, hc, row, idx, hrowidx, nt, hnt, sf, hsf, hstr, hfr, _⟩
      have hrowA : row ∈ (TabSolver.group_chords_go cfg.chord_window n [] rest).map
          (TabSolver.chord_assignments cfg) := (List.of_mem_zip hrowidx).1
      rcases List.mem_map.mp hrowA with ⟨c2, hc2, hrow2⟩
      have hp2 : ∀ m ∈ c2.notes, m.midi_pitch ≤ 88 := by
        intro m hm
        rcases TabSolver.mem_group_chords_go cfg.chord_window rest [] n c2 m hc2 hm
          with rfl | hm2 | hm2
        · exact (h m (hmemsort m (List.mem_cons_self _ _))).2.1
        · cases hm2
        · exact (h m (hmemsort m (List.mem_cons_of_mem _ hm2))).2.1
      rcases TabSolver.mem_getD_or_default row idx [] with hmemrow | hdef
      · have ha : (row.getD idx []) ∈ (if (TabSolver.generate_assignments cfg c2).isEmpty
            then [TabSolver.fallback_assignment cfg c2]
            else TabSolver.generate_assignments cfg c2) := hrow2 ▸ hmemrow
        have := TabSolver.assignment_bounds cfg c2 hp2 ha sf hsf
        rw [hstr, hfr]
        exact this
      · rw [hdef] at hsf
        cases hsf

section

attribute [local semireducible] Rat.add Rat.mul Rat.sub Rat.inv

/-- C2 amended, witnessed at a concrete input: the open-high-E note (pitch
64) satisfies the amended hypothesis and its solver output (string 1, fret 0)
is within bounds. -/
theorem TabSolver.solve_range_of_pitch_le_88_witness :
    (∀ n ∈ ([⟨0, 1/2, 64, 4/5⟩] : List NoteEvent), 0 ≤ n.midi_pitch ∧ n.midi_pitch ≤ 88 ∧
      0 ≤ n.velocity ∧ n.velocity ≤ 1 ∧ 0 ≤ n.start_time ∧ n.start_time < n.end_time) ∧
    ∀ t ∈ TabSolver.solve defaultConfig [⟨0, 1/2, 64, 4/5⟩],
      1 ≤ t.string ∧ t.string ≤ 6 ∧ 0 ≤ t.fret ∧ t.fret ≤ 24 :=
  ⟨by decide, TabSolver.solve_range_of_pitch_le_88 defaultConfig [⟨0, 1/2, 64, 4/5⟩] (by decide)⟩

end

/-! ## C1: the solver's DP equals the spec recurrence with earliest-tie argmins -/

namespace TabSolver

theorem chord_assignments_ne_nil (cfg : SolverConfig) (c : ChordGroup) :
    chord_assignments cfg c ≠ [] := by
  rcases hg : generate_assignments cfg c with _ | ⟨a, as⟩
  · simp [chord_assignments, hg]
  · simp [chord_assignments, hg]

theorem dpFold_eq_spec (cfg : SolverConfig) : ∀ (Arest : List (List ChordAssignment))
    (prevA : List ChordAssignment) (prevDp : List ℚ),
    prevA ≠ [] → prevDp.length = prevA.length → (∀ r ∈ Arest, r ≠ []) →
    dpFold cfg prevA prevDp Arest = dpSpecFold cfg prevA prevDp Arest := by
  intro Arest
  induction Arest with
  | nil => intro prevA prevDp _ _ _; rfl
  | cons currA rest ih =>
    intro prevA prevDp hA hlen hrest
    rcases prevA with _ | ⟨pa, pas⟩
    · exact absurd rfl hA
    rcases prevDp with _ | ⟨pd, pds⟩
    · simp at hlen
    have hpoint : ∀ a : ChordAssignment,
        innerMin (((pd :: pds).zip (pa :: pas)).map
          (fun dk => dk.1 + transition_cost cfg dk.2 a
            + (internal_cost cfg a + zone_cost cfg a))) =
        ((match ((pd :: pds).zip (pa :: pas)).map
            (fun dk => dk.1 + transition_cost cfg dk.2 a) with
          | [] => 0 | v :: vs => listMin1 v vs)
            + internal_cost cfg a + zone_cost cfg a,
         (match ((pd :: pds).zip (pa :: pas)).map
            (fun dk => dk.1 + transition_cost cfg dk.2 a) with
          | [] => 0 | v :: vs => listArgmin1 v vs)) := by
      intro a
      set iz := internal_cost cfg a + zone_cost cfg a with hiz
      have hzip : (pd :: pds).zip (pa :: pas) = (pd, pa) :: pds.zip pas := rfl
      rw [hzip, List.map_cons, List.map_cons]
      have hmapiz : (pds.zip pas).map
          (fun dk => dk.1 + transition_cost cfg dk.2 a + iz)
          = ((pds.zip pas).map (fun dk => dk.1 + transition_cost cfg dk.2 a)).map
            (fun x => x + iz) := by
        rw [List.map_map]
        rfl
      rw [hmapiz, innerMin_eq]
      have h1 := listMin1_map_add (pd + transition_cost cfg pa a)
        ((pds.zip pas).map (fun dk => dk.1 + transition_cost cfg dk.2 a)) iz
      have h2 := listArgmin1_map_add (pd + transition_cost cfg pa a)
        ((pds.zip pas).map (fun dk => dk.1 + transition_cost cfg dk.2 a)) iz
      rw [h1, h2]
      rw [hiz]
      rw [← add_assoc]

    show (let rows := currA.map (fun a =>
        let iz := internal_cost cfg a + zone_cost cfg a
        innerMin (((pd :: pds).zip (pa :: pas)).map
          (fun dk => dk.1 + transition_cost cfg dk.2 a + iz)))
      let res := dpFold cfg currA (rows.map Prod.fst) rest
      (res.1, (rows.map Prod.snd) :: res.2)) = _
    simp only
    have hfst : (currA.map (fun a =>
        let iz := internal_cost cfg a + zone_cost cfg a
        innerMin (((pd :: pds).zip (pa :: pas)).map
          (fun dk => dk.1 + transition_cost cfg dk.2 a + iz)))).map Prod.fst
        = currA.map (fun a =>
          (match ((pd :: pds).zip (pa :: pas)).map
              (fun dk => dk.1 + transition_cost cfg dk.2 a) with
            | [] => 0 | v :: vs => listMin1 v vs)
            + internal_cost cfg a + zone_cost cfg a) := by
      rw [List.map_map]
      refine List.map_congr_left ?_
      intro a _
      show (innerMin _).1 = _
      rw [hpoint a]
    have hsnd : (currA.map (fun a =>
        let iz := internal_cost cfg a + zone_cost cfg a
        innerMin (((pd :: pds).zip (pa :: pas)).map
          (fun dk => dk.1 + transition_cost cfg dk.2 a + iz)))).map Prod.snd
        = currA.map (fun a =>
          (match ((pd :: pds).zip (pa :: pas)).map
              (fun dk => dk.1 + transition_cost cfg dk.2 a) with
            | [] => 0 | v :: vs => listArgmin1 v vs)) := by
      rw [List.map_map]
      refine List.map_congr_left ?_
      intro a _
      show (innerMin _).2 = _
      rw [hpoint a]
    rw [hfst, hsnd]
    have hcurrne : currA ≠ [] := hrest currA (List.mem_cons_self _ _)
    have hlen2 : (currA.map (fun a =>
        (match ((pd :: pds).zip (pa :: pas)).map
            (fun dk => dk.1 + transition_cost cfg dk.2 a) with
          | [] => 0 | v :: vs => listMin1 v vs)
          + internal_cost cfg a + zone_cost cfg a)).length = currA.length :=
      List.length_map _ _
    rw [ih currA _ hcurrne hlen2 (fun r hr => hrest r (List.mem_cons_of_mem _ hr))]
    rfl

theorem dpFold_fst_ne_nil (cfg : SolverConfig) : ∀ (Arest : List (List ChordAssignment))
    (prevA : List ChordAssignment) (prevDp : List ℚ),
    prevDp ≠ [] → (∀ r ∈ Arest, r ≠ []) → (dpFold cfg prevA prevDp Arest).1 ≠ [] := by
  intro Arest
  induction Arest with
  | nil => intro prevA prevDp h _; exact h
  | cons currA rest ih =>
    intro prevA prevDp _ hrest
    have hcurrne : currA ≠ [] := hrest currA (List.mem_cons_self _ _)
    have hne2 : ((currA.map (fun a =>
        let iz := internal_cost cfg a + zone_cost cfg a
        innerMin ((prevDp.zip prevA).map
          (fun dk => dk.1 + transition_cost cfg dk.2 a + iz)))).map Prod.fst) ≠ [] := by
      simp only [ne_eq, List.map_eq_nil_iff]
      exact hcurrne
    exact ih currA _ hne2 (fun r hr => hrest r (List.mem_cons_of_mem _ hr))

theorem buildPath_eq_spec (cfg : SolverConfig) (A0 : List ChordAssignment)
    (Arest : List (List ChordAssignment)) (hA0 : A0 ≠ [])
    (hrest : ∀ r ∈ Arest, r ≠ []) :
    buildPath cfg A0 (A0.map (fun a => internal_cost cfg a + zone_cost cfg a)) Arest
      = buildPathSpec cfg A0 (A0.map (fun a => internal_cost cfg a + zone_cost cfg a)) Arest := by
  have hdp0ne : (A0.map (fun a => internal_cost cfg a + zone_cost cfg a)) ≠ [] := by
    simp only [ne_eq, List.map_eq_nil_iff]
    exact hA0
  have heq := dpFold_eq_spec cfg Arest A0
    (A0.map (fun a => internal_cost cfg a + zone_cost cfg a)) hA0 (List.length_map _ _) hrest
  have hne := dpFold_fst_ne_nil cfg Arest A0
    (A0.map (fun a => internal_cost cfg a + zone_cost cfg a)) hdp0ne hrest
  unfold buildPath buildPathSpec
  rw [heq] at hne ⊢
  show (traceAux (dpSpecFold cfg A0 (A0.map (fun a => internal_cost cfg a + zone_cost cfg a))
        Arest).2.reverse
      (innerMin (dpSpecFold cfg A0 (A0.map (fun a => internal_cost cfg a + zone_cost cfg a))
        Arest).1).2).reverse
    = (traceAux (dpSpecFold cfg A0 (A0.map (fun a => internal_cost cfg a + zone_cost cfg a))
        Arest).2.reverse
      (match (dpSpecFold cfg A0 (A0.map (fun a => internal_cost cfg a + zone_cost cfg a))
          Arest).1 with
        | [] => 0 | v :: vs => listArgmin1 v vs)).reverse
  rcases h1 : (dpSpecFold cfg A0 (A0.map (fun a => internal_cost cfg a + zone_cost cfg a))
      Arest).1 with _ | ⟨v, vs⟩
  · exact absurd h1 hne
  · rw [innerMin_eq]

end TabSolver

/-- C1: for every configuration and non-empty note list, `solve` returns
exactly the result of the spec's Viterbi recurrence — dp and back-pointer
tables as stated, the final argmin and every inner argmin breaking ties in
favour of the earliest index — expanded and sorted as the code does. -/
theorem TabSolver.solve_eq_viterbi_spec (cfg : SolverConfig) (notes : List NoteEvent)
    (hne : notes ≠ []) : TabSolver.solve cfg notes = TabSolver.solveSpec cfg notes := by
  unfold TabSolver.solve TabSolver.solveSpec
  rcases hsort : List.insertionSort (fun a b : NoteEvent => a.start_time ≤ b.start_time) notes
    with _ | ⟨n, rest⟩
  · exfalso
    have hperm := (List.perm_insertionSort
      (fun a b : NoteEvent => a.start_time ≤ b.start_time) notes)
    rw [hsort] at hperm
    have hlen := hperm.length_eq
    simp at hlen
    exact hne (List.length_eq_zero.mp hlen.symm)
  · show TabSolver.solve_dp cfg (TabSolver.group_chords_go cfg.chord_window n [] rest)
        ((TabSolver.group_chords_go cfg.chord_window n [] rest).map
          (TabSolver.chord_assignments cfg))
      = TabSolver.solveSpec_dp cfg (TabSolver.group_chords_go cfg.chord_window n [] rest)
        ((TabSolver.group_chords_go cfg.chord_window n [] rest).map
          (TabSolver.chord_assignments cfg))
    rcases hA : (TabSolver.group_chords_go cfg.chord_window n [] rest).map
        (TabSolver.chord_assignments cfg) with _ | ⟨A0, Arest⟩
    · rfl
    · have hA0 : A0 ≠ [] := by
        have : A0 ∈ (TabSolver.group_chords_go cfg.chord_window n [] rest).map
            (TabSolver.chord_assignments cfg) := by
          rw [hA]; exact List.mem_cons_self _ _
        rcases List.mem_map.mp this with ⟨c, _, hc⟩
        rw [← hc]
        exact TabSolver.chord_assignments_ne_nil cfg c
      have hrest : ∀ r ∈ Arest, r ≠ [] := by
        intro r hr
        have : r ∈ (TabSolver.group_chords_go cfg.chord_window n [] rest).map
            (TabSolver.chord_assignments cfg) := by
          rw [hA]; exact List.mem_cons_of_mem _ hr
        rcases List.mem_map.mp this with ⟨c, _, hc⟩
        rw [← hc]
        exact TabSolver.chord_assignments_ne_nil cfg c
      show List.insertionSort TabSolver.tabLe
          (TabSolver.expandChords (TabSolver.group_chords_go cfg.chord_window n [] rest)
            (A0 :: Arest)
            (TabSolver.buildPath cfg A0
              (A0.map (fun a => TabSolver.internal_cost cfg a + TabSolver.zone_cost cfg a))
              Arest))
        = List.insertionSort TabSolver.tabLe
          (TabSolver.expandChords (TabSolver.group_chords_go cfg.chord_window n [] rest)
            (A0 :: Arest)
            (TabSolver.buildPathSpec cfg A0
              (A0.map (fun a => TabSolver.internal_cost cfg a + TabSolver.zone_cost cfg a))
              Arest))
      rw [TabSolver.buildPath_eq_spec cfg A0 Arest hA0 hrest]

section

attribute [local semireducible] Rat.add Rat.mul Rat.sub Rat.inv

/-- C1, witnessed at a concrete input: the single open-high-E note, where the
code's DP agrees with the spec recurrence. -/
theorem TabSolver.solve_eq_viterbi_spec_witness :
    ([⟨0, 1/2, 64, 4/5⟩] : List NoteEvent) ≠ [] ∧
    TabSolver.solve defaultConfig [⟨0, 1/2, 64, 4/5⟩]
      = TabSolver.solveSpec defaultConfig [⟨0, 1/2, 64, 4/5⟩] :=
  ⟨by decide, TabSolver.solve_eq_viterbi_spec defaultConfig _ (by decide)⟩

end

/-! ## C3: timing preservation (input/output bijection on note fields) -/

namespace TabSolver

theorem mem_listProd_length : ∀ (ls : List (List (ℤ × ℤ))) (a : List (ℤ × ℤ)),
    a ∈ listProd ls → a.length = ls.length := by
  intro ls
  induction ls with
  | nil =>
    intro a ha
    simp only [listProd, List.mem_singleton] at ha
    simp [ha]
  | cons cands rest ih =>
    intro a ha
    simp only [listProd, List.mem_flatMap, List.mem_map] at ha
    rcases ha with ⟨c, _, ⟨tail, htail, rfl⟩⟩
    simp [ih tail htail]

theorem fallback_aux_length (cfg : SolverConfig) : ∀ (ns : List NoteEvent) (used : List ℤ),
    (fallback_assignment_aux cfg used ns).length = ns.length := by
  intro ns
  induction ns with
  | nil => intro used; rfl
  | cons nt rest ih =>
    intro used
    rcases hfind : (fallback_sorted cfg nt.midi_pitch).find?
        (fun sf => !(used.contains sf.1)) with _ | c <;>
      rw [show fallback_assignment_aux cfg used (nt :: rest) =
          (match (fallback_sorted cfg nt.midi_pitch).find? (fun sf => !(used.contains sf.1)) with
           | some sf => sf :: fallback_assignment_aux cfg (sf.1 :: used) rest
           | none => (1, max 0 (nt.midi_pitch - 64)) :: fallback_assignment_aux cfg used rest)
          from rfl, hfind] <;>
      simp [ih]

theorem chord_assignments_length (cfg : SolverConfig) (c : ChordGroup) :
    ∀ a ∈ chord_assignments cfg c, a.length = c.notes.length := by
  intro a ha
  unfold chord_assignments at ha
  by_cases hgen : (generate_assignments cfg c).isEmpty
  · rw [if_pos hgen] at ha
    simp only [List.mem_singleton] at ha
    subst ha
    exact fallback_aux_length cfg c.notes []
  · rw [if_neg hgen] at ha
    unfold generate_assignments at ha
    by_cases hempty : (c.notes.map (fun nt => candidates_for_pitch nt.midi_pitch)).any
        List.isEmpty
    · rw [if_pos hempty] at ha
      cases ha
    · rw [if_neg hempty] at ha
      have ha2 : a ∈ filterUpTo (validCombo cfg.max_fret_span) cfg.max_combos 0
          (listProd (c.notes.map (fun nt => candidates_for_pitch nt.midi_pitch))) := by
        rcases htf : cfg.target_fret with _ | t
        · rw [htf] at ha
          exact ha
        · rw [htf] at ha
          exact (List.mem_insertionSort _).mp ha
      have := mem_listProd_length _ a (mem_filterUpTo _ _ _ _ _ ha2)
      simpa using this

theorem traceAux_ne_nil : ∀ (l : List (List ℕ)) (j : ℕ), traceAux l j ≠ [] := by
  intro l j
  cases l <;> simp [traceAux]

theorem getLastD_of_ne_nil {α : Type} : ∀ (l : List α), l ≠ [] →
    ∀ (d1 d2 : α), l.getLastD d1 = l.getLastD d2 := by
  intro l
  induction l with
  | nil => intro h; exact absurd rfl h
  | cons a t _ =>
    intro _ d1 d2
    rw [List.getLastD_cons, List.getLastD_cons]

theorem traceAux_concat : ∀ (l : List (List ℕ)) (row : List ℕ) (j : ℕ),
    traceAux (l ++ [row]) j
      = traceAux l j ++ [row.getD ((traceAux l j).getLastD 0) 0] := by
  intro l
  induction l with
  | nil => intro row j; rfl
  | cons b bs ih =>
    intro row j
    show j :: traceAux (bs ++ [row]) (b.getD j 0)
      = (j :: traceAux bs (b.getD j 0)) ++ [row.getD ((j :: traceAux bs (b.getD j 0)).getLastD 0) 0]
    rw [ih]
    simp only [List.cons_append, List.getLastD_cons]
    rw [getLastD_of_ne_nil _ (traceAux_ne_nil bs (b.getD j 0)) j 0]

end TabSolver

namespace TabSolver

theorem headD_reverse {α : Type} (l : List α) (d : α) : l.reverse.headD d = l.getLastD d := by
  cases l with
  | nil => rfl
  | cons a t =>
    rw [List.headD_eq_head?, List.head?_reverse, List.getLastD_eq_getLast?]

theorem backRow_mem_bound (cfg : SolverConfig) (pa : ChordAssignment) (pas : List ChordAssignment)
    (pd : ℚ) (pds : List ℚ) (hlen : pds.length = pas.length) (currA : List ChordAssignment) :
    ∀ b ∈ (currA.map (fun a =>
        let iz := internal_cost cfg a + zone_cost cfg a
        innerMin (((pd :: pds).zip (pa :: pas)).map
          (fun dk => dk.1 + transition_cost cfg dk.2 a + iz)))).map Prod.snd,
      b < (pa :: pas).length := by
  intro b hb
  rcases List.mem_map.mp hb with ⟨pr, hpr, rfl⟩
  rcases List.mem_map.mp hpr with ⟨a, _, rfl⟩
  show (innerMin (((pd :: pds).zip (pa :: pas)).map
    (fun dk => dk.1 + transition_cost cfg dk.2 a
      + (internal_cost cfg a + zone_cost cfg a)))).2 < (pa :: pas).length
  have hzip : (pd :: pds).zip (pa :: pas) = (pd, pa) :: pds.zip pas := rfl
  rw [hzip, List.map_cons, innerMin_eq]
  have h1 := listArgmin1_lt_length
    (pd + transition_cost cfg pa a + (internal_cost cfg a + zone_cost cfg a))
    ((pds.zip pas).map (fun dk => dk.1 + transition_cost cfg dk.2 a
      + (internal_cost cfg a + zone_cost cfg a)))
  have h2 : ((pds.zip pas).map (fun dk => dk.1 + transition_cost cfg dk.2 a
      + (internal_cost cfg a + zone_cost cfg a))).length = pds.length := by
    simp [List.length_zip, hlen]
  simp only [List.length_cons]
  omega

theorem buildPath_forall₂ (cfg : SolverConfig) : ∀ (Arest : List (List ChordAssignment))
    (prevA : List ChordAssignment) (prevDp : List ℚ),
    prevA ≠ [] → prevDp.length = prevA.length → (∀ r ∈ Arest, r ≠ []) →
    List.Forall₂ (fun (idx : ℕ) (row : List ChordAssignment) => idx < row.length)
      (buildPath cfg prevA prevDp Arest) (prevA :: Arest) := by
  intro Arest
  induction Arest with
  | nil =>
    intro prevA prevDp hA hlen _
    rcases prevDp with _ | ⟨v, vs⟩
    · rcases prevA with _ | ⟨pa, pas⟩
      · exact absurd rfl hA
      · simp at hlen
    · show List.Forall₂ _ [(innerMin (v :: vs)).2] [prevA]
      rw [innerMin_eq]
      refine List.Forall₂.cons ?_ List.Forall₂.nil
      have h1 := listArgmin1_lt_length v vs
      have h2 : vs.length + 1 = prevA.length := by simpa using hlen
      show listArgmin1 v vs < prevA.length
      omega
  | cons currA rest ih =>
    intro prevA prevDp hA hlen hrest
    rcases prevA with _ | ⟨pa, pas⟩
    · exact absurd rfl hA
    rcases prevDp with _ | ⟨pd, pds⟩
    · simp at hlen
    have hlen2 : pds.length = pas.length := by simpa using hlen
    have hcurrne : currA ≠ [] := hrest currA (List.mem_cons_self _ _)
    set rows := currA.map (fun a =>
        let iz := internal_cost cfg a + zone_cost cfg a
        innerMin (((pd :: pds).zip (pa :: pas)).map
          (fun dk => dk.1 + transition_cost cfg dk.2 a + iz))) with hrows
    have hIH := ih currA (rows.map Prod.fst)
      hcurrne (by simp [hrows]) (fun r hr => hrest r (List.mem_cons_of_mem _ hr))
    rcases hpc : buildPath cfg currA (rows.map Prod.fst) rest with _ | ⟨h0, t0⟩
    · rw [hpc] at hIH
      cases hIH
    · rw [hpc] at hIH
      have hstep : buildPath cfg (pa :: pas) (pd :: pds) (currA :: rest)
          = (rows.map Prod.snd).getD h0 0 :: h0 :: t0 := by
        show (traceAux ((rows.map Prod.snd) ::
            (dpFold cfg currA (rows.map Prod.fst) rest).2).reverse
          (innerMin (dpFold cfg currA (rows.map Prod.fst) rest).1).2).reverse = _
        rw [List.reverse_cons, traceAux_concat, List.reverse_append]
        have hrev : (traceAux (dpFold cfg currA (rows.map Prod.fst) rest).2.reverse
            (innerMin (dpFold cfg currA (rows.map Prod.fst) rest).1).2).reverse
            = h0 :: t0 := hpc
        have hlast : (traceAux (dpFold cfg currA (rows.map Prod.fst) rest).2.reverse
            (innerMin (dpFold cfg currA (rows.map Prod.fst) rest).1).2).getLastD 0 = h0 := by
          rw [← headD_reverse, hrev]
          rfl
        rw [hlast]
        simp only [List.reverse_cons, List.reverse_nil, List.nil_append, List.singleton_append]
        rw [hrev]
      rw [hstep]
      refine List.Forall₂.cons ?_ hIH
      have hh0 : h0 < currA.length := by
        rcases hIH with _ | ⟨hh, _⟩
        exact hh
      have hh0len : h0 < (rows.map Prod.snd).length := by
        simp [hrows]
        simpa [hrows] using hh0
      have hmem : (rows.map Prod.snd).getD h0 0 ∈ rows.map Prod.snd := by
        rw [List.getD_eq_getElem?_getD, List.getElem?_eq_getElem hh0len]
        exact List.getElem_mem hh0len
      exact backRow_mem_bound cfg pa pas pd pds hlen2 currA _ (hrows ▸ hmem)

end TabSolver

/-- The note-field projection of a TabNote (timing, pitch, velocity). -/
def TabNote.proj (t : TabNote) : ℚ × ℚ × ℤ × ℚ :=
  (t.start_time, t.end_time, t.midi_pitch, t.velocity)

/-- The note-field projection of a NoteEvent. -/
def NoteEvent.proj (n : NoteEvent) : ℚ × ℚ × ℤ × ℚ :=
  (n.start_time, n.end_time, n.midi_pitch, n.velocity)

namespace TabSolver

theorem zip_proj_eq : ∀ (ns : List NoteEvent) (as2 : ChordAssignment),
    as2.length = ns.length →
    ((ns.zip as2).map (fun na =>
      ({ start_time := na.1.start_time, end_time := na.1.end_time,
         midi_pitch := na.1.midi_pitch, velocity := na.1.velocity,
         string := na.2.1, fret := na.2.2 } : TabNote))).map TabNote.proj
      = ns.map NoteEvent.proj := by
  intro ns
  induction ns with
  | nil => intro as2 _; rfl
  | cons n ns2 ih =>
    intro as2 hlen
    rcases as2 with _ | ⟨sf, as3⟩
    · simp at hlen
    · have : as3.length = ns2.length := by simpa using hlen
      simp only [List.zip_cons_cons, List.map_cons, ih as3 this]
      rfl

theorem expandChords_proj : ∀ (chords : List ChordGroup) (A : List (List ChordAssignment))
    (path : List ℕ),
    List.Forall₂ (fun (c : ChordGroup) (row : List ChordAssignment) =>
      ∀ a ∈ row, a.length = c.notes.length) chords A →
    List.Forall₂ (fun (idx : ℕ) (row : List ChordAssignment) => idx < row.length) path A →
    (expandChords chords A path).map TabNote.proj
      = (chords.flatMap (fun c => c.notes)).map NoteEvent.proj := by
  intro chords
  induction chords with
  | nil => intro A path _ _; rfl
  | cons c cs ih =>
    intro A path h1 h2
    rcases List.forall₂_cons_left_iff.mp h1 with ⟨row, A2, hrow, h1t, rfl⟩
    rcases List.forall₂_cons_right_iff.mp h2 with ⟨idx, path2, hidx, h2t, rfl⟩
    show ((((c.notes.zip (row.getD idx [])).map _) ++ expandChords cs A2 path2).map TabNote.proj)
      = ((c.notes ++ cs.flatMap (fun c => c.notes)).map NoteEvent.proj)
    rw [List.map_append, List.map_append]
    have hasmem : row.getD idx [] ∈ row := by
      rw [List.getD_eq_getElem?_getD, List.getElem?_eq_getElem hidx]
      exact List.getElem_mem hidx
    rw [zip_proj_eq c.notes (row.getD idx []) (hrow _ hasmem), ih A2 path2 h1t h2t]

theorem group_chords_go_flat (w : ℚ) : ∀ (l acc : List NoteEvent) (head : NoteEvent),
    (group_chords_go w head acc l).flatMap (fun c => c.notes) = head :: (acc ++ l) := by
  intro l
  induction l with
  | nil => intro acc head; simp [group_chords_go]
  | cons m ms ih =>
    intro acc head
    simp only [group_chords_go]
    by_cases h : m.start_time - head.start_time ≤ w
    · rw [if_pos h, ih (acc ++ [m]) head]
      simp
    · rw [if_neg h]
      simp only [List.flatMap_cons, ih [] m]
      simp

theorem group_chords_go_ne_nil (w : ℚ) : ∀ (l acc : List NoteEvent) (head : NoteEvent),
    group_chords_go w head acc l ≠ [] := by
  intro l
  induction l with
  | nil => intro acc head; simp [group_chords_go]
  | cons m ms ih =>
    intro acc head
    simp only [group_chords_go]
    by_cases h : m.start_time - head.start_time ≤ w
    · rw [if_pos h]
      exact ih (acc ++ [m]) head
    · rw [if_neg h]
      simp

theorem forall₂_map_of_mem {α β : Type} {P : α → β → Prop} (f : α → β) :
    ∀ (l : List α), (∀ c ∈ l, P c (f c)) → List.Forall₂ P l (l.map f) := by
  intro l
  induction l with
  | nil => intro _; exact List.Forall₂.nil
  | cons a t ih =>
    intro h
    exact List.Forall₂.cons (h a (List.mem_cons_self _ _))
      (ih (fun c hc => h c (List.mem_cons_of_mem _ hc)))

end TabSolver

/-- C3: `solve` preserves the note fields bijectively — the multiset of
(start_time, end_time, midi_pitch, velocity) tuples of the output TabNotes is
exactly that of the input NoteEvents (in particular the lengths agree, and
for each input note with a unique field tuple there is exactly one output
note with that tuple). -/
theorem TabSolver.solve_timing_preservation (cfg : SolverConfig) (notes : List NoteEvent) :
    ((TabSolver.solve cfg notes).map TabNote.proj).Perm (notes.map NoteEvent.proj) := by
  unfold TabSolver.solve
  rcases hsort : List.insertionSort (fun a b : NoteEvent => a.start_time ≤ b.start_time) notes
    with _ | ⟨n, rest⟩
  · have hperm := List.perm_insertionSort
      (fun a b : NoteEvent => a.start_time ≤ b.start_time) notes
    rw [hsort] at hperm
    have : notes = [] := by
      have hlen := hperm.length_eq
      simp at hlen
      exact List.length_eq_zero.mp hlen.symm
    rw [this]
    rfl
  · have hperm : (n :: rest).Perm notes := by
      have := List.perm_insertionSort
        (fun a b : NoteEvent => a.start_time ≤ b.start_time) notes
      rw [hsort] at this
      exact this
    show ((TabSolver.solve_dp cfg (TabSolver.group_chords_go cfg.chord_window n [] rest)
        ((TabSolver.group_chords_go cfg.chord_window n [] rest).map
          (TabSolver.chord_assignments cfg))).map TabNote.proj).Perm (notes.map NoteEvent.proj)
    have hF1 : List.Forall₂ (fun (c : ChordGroup) (row : List ChordAssignment) =>
        ∀ a ∈ row, a.length = c.notes.length)
        (TabSolver.group_chords_go cfg.chord_window n [] rest)
        ((TabSolver.group_chords_go cfg.chord_window n [] rest).map
          (TabSolver.chord_assignments cfg)) :=
      TabSolver.forall₂_map_of_mem _ _
        (fun c _ => TabSolver.chord_assignments_length cfg c)
    rcases hA : (TabSolver.group_chords_go cfg.chord_window n [] rest).map
        (TabSolver.chord_assignments cfg) with _ | ⟨A0, Arest⟩
    · exfalso
      have := TabSolver.group_chords_go_ne_nil cfg.chord_window rest [] n
      rw [List.map_eq_nil_iff] at hA
      exact this hA
    · rw [hA] at hF1
      have hA0 : A0 ≠ [] := by
        have hm : A0 ∈ (TabSolver.group_chords_go cfg.chord_window n [] rest).map
            (TabSolver.chord_assignments cfg) := by
          rw [hA]; exact List.mem_cons_self _ _
        rcases List.mem_map.mp hm with ⟨c, _, hc⟩
        rw [← hc]
        exact TabSolver.chord_assignments_ne_nil cfg c
      have hrest : ∀ r ∈ Arest, r ≠ [] := by
        intro r hr
        have hm : r ∈ (TabSolver.group_chords_go cfg.chord_window n [] rest).map
            (TabSolver.chord_assignments cfg) := by
          rw [hA]; exact List.mem_cons_of_mem _ hr
        rcases List.mem_map.mp hm with ⟨c, _, hc⟩
        rw [← hc]
        exact TabSolver.chord_assignments_ne_nil cfg c
      have hF2 := TabSolver.buildPath_forall₂ cfg Arest A0
        (A0.map (fun a => TabSolver.internal_cost cfg a + TabSolver.zone_cost cfg a))
        hA0 (List.length_map _ _) hrest
      have hexp := TabSolver.expandChords_proj
        (TabSolver.group_chords_go cfg.chord_window n [] rest) (A0 :: Arest)
        (TabSolver.buildPath cfg A0
          (A0.map (fun a => TabSolver.internal_cost cfg a + TabSolver.zone_cost cfg a)) Arest)
        hF1 hF2
      have h1 : ((TabSolver.solve_dp cfg (TabSolver.group_chords_go cfg.chord_window n [] rest)
            (A0 :: Arest)).map TabNote.proj).Perm
          ((TabSolver.expandChords (TabSolver.group_chords_go cfg.chord_window n [] rest)
            (A0 :: Arest)
            (TabSolver.buildPath cfg A0
              (A0.map (fun a => TabSolver.internal_cost cfg a + TabSolver.zone_cost cfg a))
              Arest)).map TabNote.proj) :=
        (List.perm_insertionSort _ _).map _
      refine h1.trans ?_
      rw [hexp, TabSolver.group_chords_go_flat]
      simp only [List.nil_append]
      exact hperm.map _

/-! ## C8: idempotence of the note filter -/

namespace PitchDetector

/-- Strict (pitch, start) key order: two valid filtered notes never share both. -/
def psLT (a b : NoteEvent) : Prop :=
  a.midi_pitch < b.midi_pitch ∨ (a.midi_pitch = b.midi_pitch ∧ a.start_time < b.start_time)

/-- Consecutive same-pitch notes do not overlap. -/
def noOv (a b : NoteEvent) : Prop :=
  a.midi_pitch = b.midi_pitch → a.end_time ≤ b.start_time

/-- Consecutive same-pitch notes are separated by more than `tol` seconds. -/
def gapGT (tol : ℚ) (a b : NoteEvent) : Prop :=
  a.midi_pitch = b.midi_pitch → tol < b.start_time - a.end_time

instance : IsTotal NoteEvent byPitchStart :=
  ⟨fun a b => by
    unfold byPitchStart
    rcases lt_trichotomy a.midi_pitch b.midi_pitch with h | h | h
    · exact Or.inl (Or.inl h)
    · rcases le_total a.start_time b.start_time with h2 | h2
      · exact Or.inl (Or.inr ⟨h, h2⟩)
      · exact Or.inr (Or.inr ⟨h.symm, h2⟩)
    · exact Or.inr (Or.inl h)⟩

instance : IsTrans NoteEvent byPitchStart :=
  ⟨fun a b c hab hbc => by
    unfold byPitchStart at hab hbc ⊢
    rcases hab with h1 | ⟨h1, h1s⟩ <;> rcases hbc with h2 | ⟨h2, h2s⟩
    · exact Or.inl (lt_trans h1 h2)
    · exact Or.inl (h2 ▸ h1)
    · exact Or.inl (h1 ▸ h2)
    · exact Or.inr ⟨h1.trans h2, le_trans h1s h2s⟩⟩

instance : IsTotal NoteEvent byStartPitch :=
  ⟨fun a b => by
    unfold byStartPitch
    rcases lt_trichotomy a.start_time b.start_time with h | h | h
    · exact Or.inl (Or.inl h)
    · rcases le_total a.midi_pitch b.midi_pitch with h2 | h2
      · exact Or.inl (Or.inr ⟨h, h2⟩)
      · exact Or.inr (Or.inr ⟨h.symm, h2⟩)
    · exact Or.inr (Or.inl h)⟩

instance : IsTrans NoteEvent byStartPitch :=
  ⟨fun a b c hab hbc => by
    unfold byStartPitch at hab hbc ⊢
    rcases hab with h1 | ⟨h1, h1s⟩ <;> rcases hbc with h2 | ⟨h2, h2s⟩
    · exact Or.inl (lt_trans h1 h2)
    · exact Or.inl (h2 ▸ h1)
    · exact Or.inl (h1 ▸ h2)
    · exact Or.inr ⟨h1.trans h2, le_trans h1s h2s⟩⟩

instance : IsTrans NoteEvent psLT :=
  ⟨fun a b c hab hbc => by
    unfold psLT at hab hbc ⊢
    rcases hab with h1 | ⟨h1, h1s⟩ <;> rcases hbc with h2 | ⟨h2, h2s⟩
    · exact Or.inl (lt_trans h1 h2)
    · exact Or.inl (h2 ▸ h1)
    · exact Or.inl (h1 ▸ h2)
    · exact Or.inr ⟨h1.trans h2, lt_trans h1s h2s⟩⟩

instance : IsAntisymm NoteEvent psLT :=
  ⟨fun a b hab hba => by
    exfalso
    unfold psLT at hab hba
    rcases hab with h1 | ⟨h1, h1s⟩ <;> rcases hba with h2 | ⟨h2, h2s⟩
    · exact absurd h2 (not_lt.mpr (le_of_lt h1))
    · exact absurd h1 (by omega)
    · exact absurd h2 (by omega)
    · exact absurd h2s (not_lt.mpr (le_of_lt h1s))⟩

/-- A sorted list is unchanged by `insertionSort`. -/
theorem insertionSort_eq_self {α : Type} (r : α → α → Prop) [DecidableRel r] :
    ∀ (l : List α), List.Pairwise r l → List.insertionSort r l = l := by
  intro l
  induction l with
  | nil => intro _; rfl
  | cons a t ih =>
    intro hp
    have ht := List.pairwise_cons.mp hp
    show List.orderedInsert r a (List.insertionSort r t) = a :: t
    rw [ih ht.2]
    cases t with
    | nil => rfl
    | cons b t2 =>
      show (if r a b then a :: b :: t2 else b :: List.orderedInsert r a t2) = _
      rw [if_pos (ht.1 b (List.mem_cons_self _ _))]

theorem chain'_and {α : Type} {R S : α → α → Prop} :
    ∀ (l : List α), List.Chain' R l → List.Chain' S l →
      List.Chain' (fun a b => R a b ∧ S a b) l := by
  intro l
  induction l with
  | nil => intro _ _; exact List.chain'_nil
  | cons a t ih =>
    intro h1 h2
    rw [List.chain'_cons'] at h1 h2 ⊢
    exact ⟨fun h hh => ⟨h1.1 h hh, h2.1 h hh⟩, ih h1.2 h2.2⟩

theorem chain'_of_forall {α : Type} {P : α → Prop} :
    ∀ (l : List α), (∀ x ∈ l, P x) → List.Chain' (fun a _ => P a) l := by
  intro l
  induction l with
  | nil => intro _; exact List.chain'_nil
  | cons a t ih =>
    intro h
    rw [List.chain'_cons']
    exact ⟨fun _ _ => h a (List.mem_cons_self _ _),
      ih (fun x hx => h x (List.mem_cons_of_mem _ hx))⟩

/-- Sorted, chained non-overlapping, valid (start < end) lists are strictly
increasing in the (pitch, start) key. -/
theorem pairwise_psLT_of_sorted_chain (l : List NoteEvent)
    (hs : List.Pairwise byPitchStart l) (hch : List.Chain' noOv l)
    (hv : ∀ x ∈ l, x.start_time < x.end_time) : List.Pairwise psLT l := by
  have hc1 : List.Chain' byPitchStart l := hs.chain'
  have hc2 := chain'_and l hc1 hch
  have hc3 := chain'_and l hc2 (chain'_of_forall l hv)
  have hc4 : List.Chain' psLT l := by
    refine hc3.imp ?_
    intro a b ⟨⟨hle, hno⟩, hva⟩
    unfold byPitchStart at hle
    unfold psLT
    rcases hle with h | ⟨h, hs2⟩
    · exact Or.inl h
    · exact Or.inr ⟨h, lt_of_lt_of_le hva (hno h)⟩
  exact (List.chain'_iff_pairwise).mp hc4

/-- Sorted by (pitch, start) with pairwise-distinct keys is strictly sorted. -/
theorem pairwise_psLT_of_sorted_nodup (l : List NoteEvent)
    (hs : List.Pairwise byPitchStart l)
    (hnd : List.Pairwise (fun a b : NoteEvent =>
      ¬(a.midi_pitch = b.midi_pitch ∧ a.start_time = b.start_time)) l) :
    List.Pairwise psLT l := by
  have := hs.and hnd
  refine this.imp ?_
  intro a b ⟨hle, hne⟩
  unfold byPitchStart at hle
  unfold psLT
  rcases hle with h | ⟨h, hs2⟩
  · exact Or.inl h
  · exact Or.inr ⟨h, lt_of_le_of_ne hs2 (fun he => hne ⟨h, he⟩)⟩

theorem pairwise_psLT_key_ne (l : List NoteEvent) (h : List.Pairwise psLT l) :
    List.Pairwise (fun a b : NoteEvent =>
      ¬(a.midi_pitch = b.midi_pitch ∧ a.start_time = b.start_time)) l := by
  refine h.imp ?_
  intro a b hab ⟨hp, hst⟩
  unfold psLT at hab
  rcases hab with h1 | ⟨_, h1s⟩
  · omega
  · exact absurd hst (ne_of_lt h1s)

end PitchDetector

namespace PitchDetector

theorem dedupAux_sublist : ∀ (l : List NoteEvent) (prev : NoteEvent),
    (dedupAux prev l).Sublist (prev :: l) := by
  intro l
  induction l with
  | nil => intro prev; exact List.Sublist.refl _
  | cons n rest ih =>
    intro prev
    show (if n.midi_pitch = prev.midi_pitch ∧ n.start_time < prev.end_time then
        if n.duration > prev.duration then dedupAux n rest else dedupAux prev rest
      else prev :: dedupAux n rest).Sublist (prev :: n :: rest)
    by_cases h1 : n.midi_pitch = prev.midi_pitch ∧ n.start_time < prev.end_time
    · rw [if_pos h1]
      by_cases h2 : n.duration > prev.duration
      · rw [if_pos h2]
        exact (ih n).cons _
      · rw [if_neg h2]
        exact ((ih prev).trans ((List.sublist_cons_self n rest).cons_cons prev))
    · rw [if_neg h1]
      exact (ih n).cons_cons prev

theorem dedupAux_head : ∀ (l : List NoteEvent) (prev : NoteEvent),
    List.Pairwise byPitchStart (prev :: l) →
    ∃ h t, dedupAux prev l = h :: t ∧ h.midi_pitch = prev.midi_pitch ∧
      prev.start_time ≤ h.start_time := by
  intro l
  induction l with
  | nil => intro prev _; exact ⟨prev, [], rfl, rfl, le_refl _⟩
  | cons n rest ih =>
    intro prev hp
    have hp1 : byPitchStart prev n := (List.pairwise_cons.mp hp).1 n (List.mem_cons_self _ _)
    have hpn : List.Pairwise byPitchStart (n :: rest) := (List.pairwise_cons.mp hp).2
    have hpprev : List.Pairwise byPitchStart (prev :: rest) :=
      hp.sublist ((List.sublist_cons_self n rest).cons_cons prev)
    show ∃ h t, (if n.midi_pitch = prev.midi_pitch ∧ n.start_time < prev.end_time then
        if n.duration > prev.duration then dedupAux n rest else dedupAux prev rest
      else prev :: dedupAux n rest) = h :: t ∧ _
    by_cases h1 : n.midi_pitch = prev.midi_pitch ∧ n.start_time < prev.end_time
    · rw [if_pos h1]
      by_cases h2 : n.duration > prev.duration
      · rw [if_pos h2]
        rcases ih n hpn with ⟨h, t, heq, hpitch, hstart⟩
        refine ⟨h, t, heq, hpitch.trans h1.1, ?_⟩
        have : prev.start_time ≤ n.start_time := by
          unfold byPitchStart at hp1
          rcases hp1 with hlt | ⟨_, hle⟩
          · omega
          · exact hle
        exact this.trans hstart
      · rw [if_neg h2]
        exact ih prev hpprev
    · rw [if_neg h1]
      exact ⟨prev, dedupAux n rest, rfl, rfl, le_refl _⟩

theorem dedupAux_chain : ∀ (l : List NoteEvent) (prev : NoteEvent),
    List.Pairwise byPitchStart (prev :: l) →
    List.Chain' noOv (dedupAux prev l) := by
  intro l
  induction l with
  | nil => intro prev _; simp [dedupAux]
  | cons n rest ih =>
    intro prev hp
    have hpn : List.Pairwise byPitchStart (n :: rest) := (List.pairwise_cons.mp hp).2
    have hpprev : List.Pairwise byPitchStart (prev :: rest) :=
      hp.sublist ((List.sublist_cons_self n rest).cons_cons prev)
    show List.Chain' noOv (if n.midi_pitch = prev.midi_pitch ∧ n.start_time < prev.end_time then
        if n.duration > prev.duration then dedupAux n rest else dedupAux prev rest
      else prev :: dedupAux n rest)
    by_cases h1 : n.midi_pitch = prev.midi_pitch ∧ n.start_time < prev.end_time
    · rw [if_pos h1]
      by_cases h2 : n.duration > prev.duration
      · rw [if_pos h2]
        exact ih n hpn
      · rw [if_neg h2]
        exact ih prev hpprev
    · rw [if_neg h1]
      rcases dedupAux_head rest n hpn with ⟨h, t, heq, hpitch, hstart⟩
      rw [heq]
      refine List.Chain'.cons ?_ (heq ▸ ih n hpn)
      intro hpe
      have hne : n.midi_pitch = prev.midi_pitch := hpitch ▸ hpe.symm
      have : ¬ n.start_time < prev.end_time := fun hc => h1 ⟨hne, hc⟩
      push_neg at this
      calc prev.end_time ≤ n.start_time := this
        _ ≤ h.start_time := hstart
    
theorem dedupAux_id : ∀ (l : List NoteEvent) (prev : NoteEvent),
    List.Chain' noOv (prev :: l) → dedupAux prev l = prev :: l := by
  intro l
  induction l with
  | nil => intro prev _; rfl
  | cons n rest ih =>
    intro prev hch
    have h1 := List.chain'_cons.mp hch
    show (if n.midi_pitch = prev.midi_pitch ∧ n.start_time < prev.end_time then
        if n.duration > prev.duration then dedupAux n rest else dedupAux prev rest
      else prev :: dedupAux n rest) = prev :: n :: rest
    rw [if_neg ?_, ih n h1.2]
    intro ⟨hp, hst⟩
    exact absurd hst (not_lt.mpr (h1.1 hp.symm))

theorem mergeAux_pred (tol : ℚ) (P : NoteEvent → Prop)
    (hP : ∀ a b : NoteEvent, P a → P b →
      P ⟨a.start_time, max a.end_time b.end_time, a.midi_pitch, max a.velocity b.velocity⟩) :
    ∀ (l : List NoteEvent) (prev : NoteEvent), P prev → (∀ x ∈ l, P x) →
    ∀ y ∈ mergeAux tol prev l, P y := by
  intro l
  induction l with
  | nil =>
    intro prev hprev _ y hy
    simp only [mergeAux, List.mem_singleton] at hy
    exact hy ▸ hprev
  | cons n rest ih =>
    intro prev hprev hall y hy
    show P y
    by_cases h1 : n.midi_pitch = prev.midi_pitch ∧ n.start_time - prev.end_time ≤ tol
    · rw [show mergeAux tol prev (n :: rest) =
          mergeAux tol ⟨prev.start_time, max prev.end_time n.end_time, prev.midi_pitch,
            max prev.velocity n.velocity⟩ rest from by rw [mergeAux, if_pos h1]] at hy
      exact ih _ (hP prev n hprev (hall n (List.mem_cons_self _ _)))
        (fun x hx => hall x (List.mem_cons_of_mem _ hx)) y hy
    · rw [show mergeAux tol prev (n :: rest) = prev :: mergeAux tol n rest
          from by rw [mergeAux, if_neg h1]] at hy
      rcases List.mem_cons.mp hy with rfl | hy2
      · exact hprev
      · exact ih n (hall n (List.mem_cons_self _ _))
          (fun x hx => hall x (List.mem_cons_of_mem _ hx)) y hy2

theorem mergeAux_keys : ∀ (l : List NoteEvent) (tol : ℚ) (prev : NoteEvent),
    ∀ y ∈ mergeAux tol prev l, ∃ x ∈ prev :: l,
      y.midi_pitch = x.midi_pitch ∧ y.start_time = x.start_time := by
  intro l
  induction l with
  | nil =>
    intro tol prev y hy
    simp only [mergeAux, List.mem_singleton] at hy
    exact ⟨prev, List.mem_cons_self _ _, hy ▸ ⟨rfl, rfl⟩⟩
  | cons n rest ih =>
    intro tol prev y hy
    by_cases h1 : n.midi_pitch = prev.midi_pitch ∧ n.start_time - prev.end_time ≤ tol
    · rw [show mergeAux tol prev (n :: rest) =
          mergeAux tol ⟨prev.start_time, max prev.end_time n.end_time, prev.midi_pitch,
            max prev.velocity n.velocity⟩ rest from by rw [mergeAux, if_pos h1]] at hy
      rcases ih tol _ y hy with ⟨x, hx, hk⟩
      rcases List.mem_cons.mp hx with rfl | hx2
      · exact ⟨prev, List.mem_cons_self _ _, hk⟩
      · exact ⟨x, List.mem_cons_of_mem _ (List.mem_cons_of_mem _ hx2), hk⟩
    · rw [show mergeAux tol prev (n :: rest) = prev :: mergeAux tol n rest
          from by rw [mergeAux, if_neg h1]] at hy
      rcases List.mem_cons.mp hy with he | hy2
      · exact ⟨prev, List.mem_cons_self _ _, by rw [he], by rw [he]⟩
      · rcases ih tol n y hy2 with ⟨x, hx, hk⟩
        exact ⟨x, List.mem_cons_of_mem _ hx, hk⟩

end PitchDetector

namespace PitchDetector

theorem mergeAux_head : ∀ (l : List NoteEvent) (tol : ℚ) (prev : NoteEvent),
    ∃ h t, mergeAux tol prev l = h :: t ∧ h.midi_pitch = prev.midi_pitch ∧
      h.start_time = prev.start_time := by
  intro l
  induction l with
  | nil => intro tol prev; exact ⟨prev, [], rfl, rfl, rfl⟩
  | cons n rest ih =>
    intro tol prev
    by_cases h1 : n.midi_pitch = prev.midi_pitch ∧ n.start_time - prev.end_time ≤ tol
    · rw [show mergeAux tol prev (n :: rest) =
          mergeAux tol ⟨prev.start_time, max prev.end_time n.end_time, prev.midi_pitch,
            max prev.velocity n.velocity⟩ rest from by rw [mergeAux, if_pos h1]]
      rcases ih tol _ with ⟨h, t, heq, hp, hs⟩
      exact ⟨h, t, heq, hp, hs⟩
    · rw [show mergeAux tol prev (n :: rest) = prev :: mergeAux tol n rest
          from by rw [mergeAux, if_neg h1]]
      exact ⟨prev, _, rfl, rfl, rfl⟩

theorem mergeAux_sorted : ∀ (l : List NoteEvent) (tol : ℚ) (prev : NoteEvent),
    List.Pairwise byPitchStart (prev :: l) →
    List.Pairwise byPitchStart (mergeAux tol prev l) := by
  intro l
  induction l with
  | nil => intro tol prev _; simp [mergeAux]
  | cons n rest ih =>
    intro tol prev hp
    have hpc := List.pairwise_cons.mp hp
    by_cases h1 : n.midi_pitch = prev.midi_pitch ∧ n.start_time - prev.end_time ≤ tol
    · rw [show mergeAux tol prev (n :: rest) =
          mergeAux tol ⟨prev.start_time, max prev.end_time n.end_time, prev.midi_pitch,
            max prev.velocity n.velocity⟩ rest from by rw [mergeAux, if_pos h1]]
      refine ih tol _ ?_
      rw [List.pairwise_cons]
      refine ⟨?_, (List.pairwise_cons.mp hpc.2).2⟩
      intro x hx
      exact hpc.1 x (List.mem_cons_of_mem _ hx)
    · rw [show mergeAux tol prev (n :: rest) = prev :: mergeAux tol n rest
          from by rw [mergeAux, if_neg h1]]
      rw [List.pairwise_cons]
      refine ⟨?_, ih tol n hpc.2⟩
      intro y hy
      rcases mergeAux_keys rest tol n y hy with ⟨x, hx, hkp, hks⟩
      have hbx := hpc.1 x hx
      unfold byPitchStart at hbx ⊢
      rw [hkp, hks]
      exact hbx

theorem mergeAux_chain : ∀ (l : List NoteEvent) (tol : ℚ) (prev : NoteEvent),
    List.Chain' (gapGT tol) (mergeAux tol prev l) := by
  intro l
  induction l with
  | nil => intro tol prev; simp [mergeAux]
  | cons n rest ih =>
    intro tol prev
    by_cases h1 : n.midi_pitch = prev.midi_pitch ∧ n.start_time - prev.end_time ≤ tol
    · rw [show mergeAux tol prev (n :: rest) =
          mergeAux tol ⟨prev.start_time, max prev.end_time n.end_time, prev.midi_pitch,
            max prev.velocity n.velocity⟩ rest from by rw [mergeAux, if_pos h1]]
      exact ih tol _
    · rw [show mergeAux tol prev (n :: rest) = prev :: mergeAux tol n rest
          from by rw [mergeAux, if_neg h1]]
      rcases mergeAux_head rest tol n with ⟨h, t, heq, hkp, hks⟩
      rw [heq]
      refine List.Chain'.cons ?_ (heq ▸ ih tol n)
      intro hpe
      rw [hks]
      have h2 : ¬ n.start_time - prev.end_time ≤ tol :=
        fun hc => h1 ⟨(hpe.trans hkp).symm, hc⟩
      exact not_le.mp h2

theorem mergeAux_id : ∀ (l : List NoteEvent) (tol : ℚ) (prev : NoteEvent),
    List.Chain' (gapGT tol) (prev :: l) → mergeAux tol prev l = prev :: l := by
  intro l
  induction l with
  | nil => intro tol prev _; rfl
  | cons n rest ih =>
    intro tol prev hch
    have h1 := List.chain'_cons.mp hch
    show (if n.midi_pitch = prev.midi_pitch ∧ n.start_time - prev.end_time ≤ tol then
        mergeAux tol ⟨prev.start_time, max prev.end_time n.end_time, prev.midi_pitch,
          max prev.velocity n.velocity⟩ rest
      else prev :: mergeAux tol n rest) = prev :: n :: rest
    rw [if_neg ?_, ih tol n h1.2]
    intro ⟨hpe, hle⟩
    exact absurd hle (not_le.mpr (h1.1 hpe.symm))

end PitchDetector

namespace PitchDetector

theorem keepNote_iff (minVel : ℚ) (n : NoteEvent) :
    keepNote minVel n = true ↔
      GUITAR_MIN_MIDI ≤ n.midi_pitch ∧ n.midi_pitch ≤ GUITAR_MAX_MIDI ∧
        minVel ≤ n.velocity := by
  simp [keepNote, not_lt, and_assoc, not_or]

theorem pairwise_of_len_le_one {α : Type} {r : α → α → Prop} :
    ∀ (l : List α), l.length ≤ 1 → List.Pairwise r l := by
  intro l h
  rcases l with _ | ⟨a, _ | ⟨b, t⟩⟩
  · exact List.Pairwise.nil
  · simp
  · simp at h

theorem chain'_of_len_le_one {α : Type} {r : α → α → Prop} :
    ∀ (l : List α), l.length ≤ 1 → List.Chain' r l := by
  intro l h
  rcases l with _ | ⟨a, _ | ⟨b, t⟩⟩
  · exact List.chain'_nil
  · exact List.chain'_singleton a
  · simp at h

theorem deduplicate_sorted_chain (K : List NoteEvent) :
    List.Pairwise byPitchStart (deduplicate K) ∧ List.Chain' noOv (deduplicate K) ∧
      ∀ x ∈ deduplicate K, x ∈ K := by
  by_cases hlen : K.length ≤ 1
  · rw [show deduplicate K = K from by rw [deduplicate]; exact if_pos hlen]
    exact ⟨pairwise_of_len_le_one K hlen, chain'_of_len_le_one K hlen, fun x hx => hx⟩
  · rw [deduplicate, if_neg hlen]
    rcases hK : List.insertionSort byPitchStart K with _ | ⟨n, rest⟩
    · have hp := List.perm_insertionSort byPitchStart K
      rw [hK] at hp
      have h0 : K.length = 0 := hp.symm.length_eq
      omega
    · have hsorted : List.Pairwise byPitchStart (n :: rest) := by
        have hs := List.sorted_insertionSort byPitchStart K
        rw [hK] at hs
        exact hs
      have hp := List.perm_insertionSort byPitchStart K
      rw [hK] at hp
      refine ⟨List.Pairwise.sublist (dedupAux_sublist rest n) hsorted,
        dedupAux_chain rest n hsorted, ?_⟩
      intro x hx
      exact hp.subset ((dedupAux_sublist rest n).subset hx)

theorem merge_close_sorted (D : List NoteEvent) (tolMs : ℚ)
    (hs : List.Pairwise byPitchStart D) :
    List.Pairwise byPitchStart (merge_close_notes D tolMs) := by
  rw [merge_close_notes]
  by_cases hc : D.length ≤ 1 ∨ tolMs ≤ 0
  · rw [if_pos hc]; exact hs
  · rw [if_neg hc, insertionSort_eq_self byPitchStart D hs]
    rcases D with _ | ⟨d, drest⟩
    · exact List.Pairwise.nil
    · exact mergeAux_sorted drest (tolMs / 1000) d hs

theorem merge_close_chain (D : List NoteEvent) (tolMs : ℚ)
    (hs : List.Pairwise byPitchStart D) (hch : List.Chain' noOv D) :
    List.Chain' noOv (merge_close_notes D tolMs) := by
  rw [merge_close_notes]
  by_cases hc : D.length ≤ 1 ∨ tolMs ≤ 0
  · rw [if_pos hc]; exact hch
  · rw [if_neg hc, insertionSort_eq_self byPitchStart D hs]
    push_neg at hc
    rcases D with _ | ⟨d, drest⟩
    · exact List.chain'_nil
    · refine (mergeAux_chain drest (tolMs / 1000) d).imp ?_
      intro a b hab hpe
      have hgt := hab hpe
      have htol : (0:ℚ) < tolMs / 1000 := by
        have := hc.2
        positivity
      linarith

theorem merge_close_gap (D : List NoteEvent) (tolMs : ℚ) (htol : 0 < tolMs)
    (hlen : 2 ≤ (merge_close_notes D tolMs).length) :
    List.Chain' (gapGT (tolMs / 1000)) (merge_close_notes D tolMs) := by
  rw [merge_close_notes] at hlen ⊢
  by_cases hc : D.length ≤ 1 ∨ tolMs ≤ 0
  · rw [if_pos hc] at hlen ⊢
    rcases hc with h | h
    · omega
    · linarith
  · rw [if_neg hc] at hlen ⊢
    rcases hD : List.insertionSort byPitchStart D with _ | ⟨n, rest⟩
    · push_neg at hc
      have hp := List.perm_insertionSort byPitchStart D
      rw [hD] at hp
      have h0 : D.length = 0 := hp.symm.length_eq
      omega
    · exact mergeAux_chain rest (tolMs / 1000) n

theorem merge_close_pred (P : NoteEvent → Prop)
    (hP : ∀ a b : NoteEvent, P a → P b →
      P ⟨a.start_time, max a.end_time b.end_time, a.midi_pitch, max a.velocity b.velocity⟩)
    (D : List NoteEvent) (tolMs : ℚ) (hall : ∀ x ∈ D, P x) :
    ∀ y ∈ merge_close_notes D tolMs, P y := by
  rw [merge_close_notes]
  by_cases hc : D.length ≤ 1 ∨ tolMs ≤ 0
  · rw [if_pos hc]; exact hall
  · rw [if_neg hc]
    rcases hD : List.insertionSort byPitchStart D with _ | ⟨n, rest⟩
    · exact hall
    · have hperm := List.perm_insertionSort byPitchStart D
      rw [hD] at hperm
      have hall' : ∀ x ∈ n :: rest, P x := fun x hx => hall x (hperm.subset hx)
      intro y hy
      exact mergeAux_pred (tolMs / 1000) P hP rest n (hall' n (List.mem_cons_self _ _))
        (fun x hx => hall' x (List.mem_cons_of_mem _ hx)) y hy

end PitchDetector

namespace PitchDetector

/-- A list `M` that is by-pitch-start sorted, same-pitch non-overlapping,
strictly increasing on keys, all-kept, and gap-separated when the tolerance is
positive, is a fixed point of the composite filter once finally sorted by
`(start_time, midi_pitch)`. -/
theorem note_filter_fixed (minVel tolMs : ℚ) (M : List NoteEvent)
    (hall : ∀ x ∈ M, keepNote minVel x = true)
    (hsorted : List.Pairwise byPitchStart M)
    (hchain : List.Chain' noOv M)
    (hpsLT : List.Pairwise psLT M)
    (hgap : ¬ tolMs ≤ 0 → ¬ M.length ≤ 1 → List.Chain' (gapGT (tolMs / 1000)) M) :
    note_filter minVel tolMs (List.insertionSort byStartPitch M) =
      List.insertionSort byStartPitch M := by
  have hFM : (List.insertionSort byStartPitch M).Perm M := List.perm_insertionSort _ _
  have hFsorted : List.Pairwise byStartPitch (List.insertionSort byStartPitch M) :=
    List.sorted_insertionSort _ _
  have hFall : ∀ x ∈ List.insertionSort byStartPitch M, keepNote minVel x = true :=
    fun x hx => hall x (hFM.subset hx)
  show List.insertionSort byStartPitch
      (merge_close_notes
        (deduplicate ((List.insertionSort byStartPitch M).filter (keepNote minVel))) tolMs) =
    List.insertionSort byStartPitch M
  rw [List.filter_eq_self.mpr hFall]
  by_cases hlen : (List.insertionSort byStartPitch M).length ≤ 1
  · rw [show deduplicate (List.insertionSort byStartPitch M) =
        List.insertionSort byStartPitch M from by rw [deduplicate]; exact if_pos hlen]
    rw [show merge_close_notes (List.insertionSort byStartPitch M) tolMs =
        List.insertionSort byStartPitch M from by
      rw [merge_close_notes]; exact if_pos (Or.inl hlen)]
    exact insertionSort_eq_self byStartPitch _ hFsorted
  · have hSM : List.insertionSort byPitchStart (List.insertionSort byStartPitch M) = M := by
      have hperm : (List.insertionSort byPitchStart (List.insertionSort byStartPitch M)).Perm M :=
        (List.perm_insertionSort _ _).trans hFM
      have hSsorted := List.sorted_insertionSort byPitchStart
        (List.insertionSort byStartPitch M)
      have hsymm : ∀ {a b : NoteEvent},
          ¬(a.midi_pitch = b.midi_pitch ∧ a.start_time = b.start_time) →
          ¬(b.midi_pitch = a.midi_pitch ∧ b.start_time = a.start_time) := by
        intro a b h hab
        exact h ⟨hab.1.symm, hab.2.symm⟩
      have hkeyS := (hperm.pairwise_iff hsymm).mpr (pairwise_psLT_key_ne M hpsLT)
      exact List.eq_of_perm_of_sorted hperm
        (pairwise_psLT_of_sorted_nodup _ hSsorted hkeyS) hpsLT
    have hMlen : ¬ M.length ≤ 1 := by
      rw [hFM.length_eq] at hlen
      exact hlen
    have hMne : M ≠ [] := by
      intro h0
      rw [h0] at hMlen
      exact hMlen (by simp)
    obtain ⟨m1, mrest, hMeq⟩ := List.exists_cons_of_ne_nil hMne
    rw [show deduplicate (List.insertionSort byStartPitch M) = M from by
      rw [deduplicate, if_neg hlen, hSM, hMeq]
      exact dedupAux_id mrest m1 (hMeq ▸ hchain)]
    rw [show merge_close_notes M tolMs = M from by
      by_cases htol : tolMs ≤ 0
      · rw [merge_close_notes]; exact if_pos (Or.inr htol)
      · rw [merge_close_notes, if_neg (fun hc => hc.elim hMlen htol),
          insertionSort_eq_self byPitchStart M hsorted, hMeq]
        exact mergeAux_id mrest (tolMs / 1000) m1 (hMeq ▸ hgap htol hMlen)]

end PitchDetector

/-- **C8**: the composite note filter of `PitchDetector.detect` — range clip,
velocity clip, overlap deduplication, close-note merge, final sort by
`(start_time, midi_pitch)` — is idempotent on every note list whose events
satisfy the data model's `end_time > start_time`: applying the filter to its
own output returns that output unchanged. -/
theorem PitchDetector.note_filter_idempotent (minVel tolMs : ℚ) (notes : List NoteEvent)
    (hv : ∀ n ∈ notes, n.start_time < n.end_time) :
    PitchDetector.note_filter minVel tolMs (PitchDetector.note_filter minVel tolMs notes) =
      PitchDetector.note_filter minVel tolMs notes := by
  obtain ⟨hDsorted, hDchain, hDmem⟩ :=
    PitchDetector.deduplicate_sorted_chain (notes.filter (PitchDetector.keepNote minVel))
  have hDP : ∀ x ∈ PitchDetector.deduplicate (notes.filter (PitchDetector.keepNote minVel)),
      PitchDetector.keepNote minVel x = true ∧ x.start_time < x.end_time := by
    intro x hx
    have hm := hDmem x hx
    rw [List.mem_filter] at hm
    exact ⟨hm.2, hv x hm.1⟩
  have hPclosed : ∀ a b : NoteEvent,
      (PitchDetector.keepNote minVel a = true ∧ a.start_time < a.end_time) →
      (PitchDetector.keepNote minVel b = true ∧ b.start_time < b.end_time) →
      (PitchDetector.keepNote minVel ⟨a.start_time, max a.end_time b.end_time, a.midi_pitch,
          max a.velocity b.velocity⟩ = true ∧
        (⟨a.start_time, max a.end_time b.end_time, a.midi_pitch,
          max a.velocity b.velocity⟩ : NoteEvent).start_time <
        (⟨a.start_time, max a.end_time b.end_time, a.midi_pitch,
          max a.velocity b.velocity⟩ : NoteEvent).end_time) := by
    intro a b ha hb
    refine ⟨?_, lt_of_lt_of_le ha.2 (le_max_left _ _)⟩
    rw [PitchDetector.keepNote_iff] at ha ⊢
    · exact ⟨ha.1.1, ha.1.2.1, le_trans ha.1.2.2 (le_max_left _ _)⟩
  have hMP := PitchDetector.merge_close_pred _ hPclosed
    (PitchDetector.deduplicate (notes.filter (PitchDetector.keepNote minVel))) tolMs hDP
  have hMsorted := PitchDetector.merge_close_sorted
    (PitchDetector.deduplicate (notes.filter (PitchDetector.keepNote minVel))) tolMs hDsorted
  have hMchain := PitchDetector.merge_close_chain
    (PitchDetector.deduplicate (notes.filter (PitchDetector.keepNote minVel))) tolMs
    hDsorted hDchain
  have hMpsLT := PitchDetector.pairwise_psLT_of_sorted_chain _ hMsorted hMchain
    (fun x hx => (hMP x hx).2)
  exact PitchDetector.note_filter_fixed minVel tolMs _ (fun x hx => (hMP x hx).1)
    hMsorted hMchain hMpsLT
    (fun htol hlen => PitchDetector.merge_close_gap _ tolMs (not_le.mp htol) (by omega))

/-- Witness for C8: a concrete one-note list satisfies the validity hypothesis
and the idempotence conclusion. -/
theorem PitchDetector.note_filter_idempotent_witness :
    (∀ n ∈ [(⟨0, 1, 64, 1⟩ : NoteEvent)], n.start_time < n.end_time) ∧
      PitchDetector.note_filter 0 30
          (PitchDetector.note_filter 0 30 [(⟨0, 1, 64, 1⟩ : NoteEvent)]) =
        PitchDetector.note_filter 0 30 [(⟨0, 1, 64, 1⟩ : NoteEvent)] :=
  ⟨by decide, PitchDetector.note_filter_idempotent 0 30 _ (by decide)⟩
